import Mathlib

/- Shallow embedding of the timetable / routing core of the repository:
   `scheduler.py` (`Scheduler.generate`), `graph_util.py` (`build_graph`,
   `shortest_path`) and `route_optimizer.py` (`RouteOptimizer.create_graph`).
   CSV fields are modelled as strings (a missing / falsy Python value is the
   empty string), machine floats as real numbers, and the pseudo-random
   calls of a trial as an explicit oracle argument, so that quantifying over
   all oracles covers every possible random outcome. -/

/-- One record of `school_data` (`DataLoader.load_school_data`): the columns
`Scheduler.generate` reads — `과목` (subject), `선생님` (teacher), `담당 반`
(raw comma-separated class string), `담당 교실` (room), `주간시수` (weekly
hours, read through `int(...)`). -/
structure Row where
  subject : String
  teacher : String
  classes : String
  room : String
  hours : Int
deriving DecidableEq, Inhabited

/-- Helper for `splitComma`. -/
def splitCommaAux : List Char → List Char → List String
  | [], acc => [String.mk acc.reverse]
  | c :: cs, acc =>
    if c = ',' then String.mk acc.reverse :: splitCommaAux cs []
    else splitCommaAux cs (c :: acc)

/-- Python `s.split(',')`. -/
def splitComma (s : String) : List String := splitCommaAux s.data []

/-- Python `s.strip()`. -/
def pyStrip (s : String) : String :=
  String.mk (((s.data.dropWhile Char.isWhitespace).reverse.dropWhile Char.isWhitespace).reverse)

/-- Lexicographic comparison of char lists by code point (Python's `<` on
strings). -/
def charListLt : List Char → List Char → Bool
  | [], [] => false
  | [], _ :: _ => true
  | _ :: _, [] => false
  | a :: as, b :: bs =>
    if a.toNat < b.toNat then true
    else if b.toNat < a.toNat then false
    else charListLt as bs

/-- Python `<` on strings. -/
def strLt (a b : String) : Bool := charListLt a.data b.data

/-- Insert into a sorted list of strings (helper for `sortStrings`). -/
def insertSorted (a : String) : List String → List String
  | [] => [a]
  | b :: bs => if strLt b a then b :: insertSorted a bs else a :: b :: bs

/-- Python `sorted` on strings (insertion sort produces the sorted permutation). -/
def sortStrings (l : List String) : List String := l.foldr insertSorted []

/-- `Scheduler.get_classes` (scheduler.py lines 33-39): split every row's
`담당 반` on commas, strip, dedup (a Python `set`), sort. -/
def get_classes (data : List Row) : List String :=
  sortStrings ((data.flatMap fun row => (splitComma row.classes).map pyStrip).dedup)

/-- A placeable unit (scheduler.py lines 100-104): the dict
`{'과목': ..., '선생님': ..., '교실': ...}`. -/
structure Slot where
  subject : String
  teacher : String
  room : String
deriving DecidableEq, Inhabited

/-- scheduler.py line 93: rows whose raw (unstripped) class list contains the class. -/
def class_rows (data : List Row) (c : String) : List Row :=
  data.filter fun row => (splitComma row.classes).contains c

/-- scheduler.py lines 96-98: `subject_count[row['과목']] = count` in row order,
so a later row with the same subject overwrites the earlier count.  Keys not
set are read back as 0 (`dict.get(..., 0)`). -/
def subject_count_of (rows : List Row) : String → Int :=
  rows.foldl (fun m row => fun s => if s = row.subject then row.hours else m s) (fun _ => 0)

/-- scheduler.py lines 96-104: the flat slot pool, `count` copies of each row's
slot dict in row order (`range` of a non-positive int is empty). -/
def subject_slots_of (rows : List Row) : List Slot :=
  rows.flatMap fun row => List.replicate row.hours.toNat ⟨row.subject, row.teacher, row.room⟩

/-- Randomness oracle for one trial: `shuf c` drives `random.shuffle` for class
`c` (a Fisher-Yates index stream) and `choice d p c` drives the `random.choice`
made in cell `(d, p)` for class `c`. -/
structure Oracle where
  shuf : String → Nat → Nat
  choice : String → Nat → String → Nat

/-- Fuel-driven helper for `shuffleWith` (the fuel is the list length, so it
never runs out). -/
def shuffleGo (r : Nat → Nat) : Nat → Nat → List Slot → List Slot
  | 0, _, _ => []
  | _, _, [] => []
  | fuel + 1, k, a :: tl =>
    let i := r k % (a :: tl).length
    (a :: tl).getD i default :: shuffleGo r fuel (k + 1) ((a :: tl).eraseIdx i)

/-- `random.shuffle` modelled as index-driven Fisher-Yates extraction: the
stream `r` decides, at each step, which remaining element comes next.  Every
permutation is produced by some stream. -/
def shuffleWith (r : Nat → Nat) (k : Nat) (l : List Slot) : List Slot :=
  shuffleGo r l.length k l

/-- The per-trial mutable state of scheduler.py lines 88-107:
`class_subject_slots` (shuffled) and `class_subject_count`, keyed by class. -/
structure TrialState where
  pool : String → List Slot
  count : String → String → Int

/-- scheduler.py lines 92-107: build each class's shuffled slot pool and its
subject count map. -/
def init_state (o : Oracle) (data : List Row) : TrialState where
  pool := fun c => shuffleWith (o.shuf c) 0 (subject_slots_of (class_rows data c))
  count := fun c => subject_count_of (class_rows data c)

/-- scheduler.py line 116: `available_slots` — slots of the class's pool with
remaining subject count whose teacher is not in `used_teachers` (a slot dict
is always truthy). -/
def avail_of (st : TrialState) (c : String) (used : List String) : List Slot :=
  (st.pool c).filter fun slot =>
    decide (0 < st.count c slot.subject) && !(used.contains slot.teacher)

/-- scheduler.py line 118: the slot `random.choice` picks from the non-empty
available list, by oracle index. -/
def chosen (avail : List Slot) (k : Nat) : Slot :=
  avail.getD (k % avail.length) default

/-- scheduler.py lines 119-120: decrement the chosen slot's subject count and
remove it from the class's pool (`list.remove`: first occurrence). -/
def place_update (st : TrialState) (c : String) (slot : Slot) : TrialState where
  pool := fun x => if x = c then (st.pool x).erase slot else st.pool x
  count := fun x =>
    if x = c then (fun s => if s = slot.subject then st.count x s - 1 else st.count x s)
    else st.count x

/-- scheduler.py lines 125-126: the teacher joins `used_teachers` only when
truthy (non-empty). -/
def upd_used (used : List String) (slot : Slot) : List String :=
  if slot.teacher = "" then used else slot.teacher :: used

/-- Prepend one class's assignment to the cell's output. -/
def consFst {α β : Type} (a : α) (x : List α × β) : List α × β := (a :: x.1, x.2)

/-- scheduler.py lines 113-126: fill one `(day, period)` cell, iterating the
classes in order and accumulating `used_teachers`; an empty available list
leaves the cell `None` for that class. -/
def fill_cell (choice : String → Nat) :
    List String → TrialState → List String → List (String × Option Slot) × TrialState
  | [], st, _ => ([], st)
  | c :: rest, st, used =>
    if avail_of st c used = [] then
      consFst (c, none) (fill_cell choice rest st used)
    else
      consFst (c, some (chosen (avail_of st c used) (choice c)))
        (fill_cell choice rest
          (place_update st c (chosen (avail_of st c used) (choice c)))
          (upd_used used (chosen (avail_of st c used) (choice c))))

/-- scheduler.py line 74. -/
def days : List String := ["월요일", "화요일", "수요일", "목요일", "금요일"]

/-- scheduler.py lines 75-81. -/
def periods_per_day (d : String) : Nat :=
  if d = "월요일" then 7 else if d = "화요일" then 7 else if d = "수요일" then 4
  else if d = "목요일" then 7 else if d = "금요일" then 5 else 0

/-- The canonical cell order of the nested loops at scheduler.py lines 111-112:
days in week order, periods ascending. -/
def grid_cells : List (String × Nat) :=
  days.flatMap fun d => (List.range (periods_per_day d)).map fun p => (d, p)

/-- A trial's timetable, in canonical cell order: each `(day, period)` cell
carries the per-class assignment written at scheduler.py line 124. -/
abbrev Timetable := List ((String × Nat) × List (String × Option Slot))

/-- scheduler.py lines 111-126: process the cells in canonical order, threading
the pools and counts; `used_teachers` is reset at every cell. -/
def run_cells (o : Oracle) (classes : List String) :
    List (String × Nat) → TrialState → Timetable × TrialState
  | [], st => ([], st)
  | cell :: rest, st =>
    consFst (cell, (fill_cell (o.choice cell.1 cell.2) classes st []).1)
      (run_cells o classes rest (fill_cell (o.choice cell.1 cell.2) classes st []).2)

/-- One full trial of `Scheduler.generate` (scheduler.py lines 86-126). -/
def trial_run (o : Oracle) (data : List Row) : Timetable :=
  (run_cells o (get_classes data) grid_cells (init_state o data)).1

/-- The assignment list of cell `(d, p)` (one entry per class, in class order). -/
def cell_assigns (T : Timetable) (d : String) (p : Nat) : List (String × Option Slot) :=
  ((T.find? fun cell => cell.1 == (d, p)).map (·.2)).getD []

/-- All teacher names placed in cell `(d, p)` across classes. -/
def cell_teachers (T : Timetable) (d : String) (p : Nat) : List String :=
  (cell_assigns T d p).filterMap fun a => a.2.map (·.teacher)

/-- The slots placed for class `c` over the whole week, in canonical cell order. -/
def placed_of (T : Timetable) (c : String) : List Slot :=
  T.filterMap fun cell => (cell.2.find? fun a => a.1 == c).bind (·.2)

/-- How many slots of subject `S` class `c` received over the week. -/
def placed_count (T : Timetable) (c S : String) : Nat :=
  (placed_of T c).countP fun slot => slot.subject == S

/-- A location record as consumed by `graph_util.build_graph`
(`building`, `floor`, `room_number`, `x_coord`, `y_coord`). -/
structure GLoc where
  building : String
  floor : Int
  room_number : String
  x_coord : ℝ
  y_coord : ℝ

/-- graph_util.py line 29: `((a.x_coord-b.x_coord)**2 + (a.y_coord-b.y_coord)**2)**0.5`. -/
noncomputable def euclid (a b : GLoc) : ℝ :=
  Real.sqrt ((a.x_coord - b.x_coord) ^ 2 + (a.y_coord - b.y_coord) ^ 2)

/-- graph_util.py lines 29-31: `weight = dist + stairs * 5`. -/
noncomputable def gWeight (a b : GLoc) : ℝ :=
  euclid a b + ((a.floor - b.floor).natAbs : ℝ) * 5

/-- An undirected weighted graph: node list plus edge store.  The edge list is
kept in reverse-chronological order and looked up by first match (either
orientation), which models networkx's overwrite-on-re-add semantics. -/
structure WGraph where
  nodes : List String
  edges : List (String × String × ℝ)

/-- The weight of the undirected edge `u ~ v`, if present. -/
def edgeWeight (G : WGraph) (u v : String) : Option ℝ :=
  (G.edges.find? fun e => (e.1 == u && e.2.1 == v) || (e.1 == v && e.2.1 == u)).map (·.2.2)

/-- All pairs `(l[i], l[j])` with `i < j`, in iteration order. -/
def pairsOf {α : Type} : List α → List (α × α)
  | [] => []
  | a :: rest => rest.map (fun b => (a, b)) ++ pairsOf rest

/-- `graph_util.build_graph` (lines 11-33): one node per location row, one
edge per index pair `i < j` weighted by distance plus stair penalty. -/
noncomputable def build_graph (locations : List GLoc) : WGraph where
  nodes := locations.map (·.room_number)
  edges := ((pairsOf locations).map fun ab =>
    (ab.1.room_number, ab.2.room_number, gWeight ab.1 ab.2)).reverse

/-- `sum(self.graph[u][v]['weight'] for u, v in zip(path, path[1:]))`; a
missing edge contributes 0 (callers wrap the lookup in `try`). -/
noncomputable def pathCost (G : WGraph) : List String → ℝ
  | u :: v :: rest => (edgeWeight G u v).getD 0 + pathCost G (v :: rest)
  | _ => 0

/-- All simple paths from `a` to `b` whose intermediate nodes are drawn from
`avail` (fuel-driven helper for the `shortest_path` model; the fuel is the
length of `avail`, so it never runs out). -/
def simplePathsGo (G : WGraph) : Nat → List String → String → String → List (List String)
  | 0, _, a, b => if a = b then [[a]] else []
  | fuel + 1, avail, a, b =>
    if a = b then [[a]]
    else
      (avail.filter fun c => (edgeWeight G a c).isSome).flatMap
        fun c => (simplePathsGo G fuel (avail.erase c) c b).map (a :: ·)

/-- All simple paths from `a` to `b` in `G`. -/
def simplePaths (G : WGraph) (a b : String) : List (List String) :=
  simplePathsGo G (G.nodes.erase a).length (G.nodes.erase a) a b

/-- Model of `networkx.shortest_path(G, start, end, weight='weight')` by its
documented contract (Dijkstra over non-negative weights): a minimum
total-weight path from `start` to `end`; failure (`none`) when an endpoint is
missing from the graph (NodeNotFound) or no path exists (NetworkXNoPath).
`shortest_path` at graph_util.py lines 35-44 is a direct call to this library
routine, so the repository contributes no algorithm of its own here. -/
noncomputable def shortest_path (G : WGraph) (a b : String) : Option (List String) :=
  if a ∈ G.nodes ∧ b ∈ G.nodes then (simplePaths G a b).argmin (pathCost G) else none

/-- scheduler.py lines 131-144 for one class, after extracting the cells whose
slot is truthy with a truthy (non-empty) room: thread `prev_room`, and for each
later cell add the cost of the shortest path from `prev_room` (a failed query
adds nothing: the `try` at lines 138-143), then advance `prev_room`. -/
noncomputable def class_move (G : WGraph) : Option String → List Slot → ℝ
  | _, [] => 0
  | prev, s :: rest =>
    (match prev with
     | none => 0
     | some pr =>
       match shortest_path G pr s.room with
       | none => 0
       | some path => pathCost G path) + class_move G (some s.room) rest

/-- scheduler.py lines 128-144: a trial's total movement, summed over classes. -/
noncomputable def total_move (G : WGraph) (classes : List String) (T : Timetable) : ℝ :=
  (classes.map fun c =>
    class_move G none ((placed_of T c).filter fun s => s.room ≠ "")).sum

/-- One iteration of the trial loop (scheduler.py lines 85-149): run trial `t`
and keep it only on strict improvement (`best_total_move` starts at `inf`, so
the first trial always replaces it: the `none` case). -/
noncomputable def generate_step (G : WGraph) (classes : List String) (O : Nat → Oracle)
    (data : List Row) (best : Option (Timetable × ℝ)) (t : Nat) : Option (Timetable × ℝ) :=
  let T := trial_run (O t) data
  let cost := total_move G classes T
  match best with
  | none => some (T, cost)
  | some bt => if cost < bt.2 then some (T, cost) else some bt

/-- `Scheduler.generate` (scheduler.py lines 67-150): run `trials` independent
trials (trial `t` driven by oracle `O t`), keep the best timetable by total
movement, and return it — `None` when no trial ran. -/
noncomputable def generate (O : Nat → Oracle) (locations : List GLoc) (data : List Row)
    (trials : Nat) : Option Timetable :=
  ((List.range trials).foldl
    (generate_step (build_graph locations) (get_classes data) O data) none).map Prod.fst

/-- A location row as consumed by `RouteOptimizer.create_graph`
(`room_number`, `x_coord`, `y_coord`, `building`, `floor`, `elevator`;
a missing elevator column is filled with 0, route_optimizer.py lines 30-32). -/
structure RLoc where
  room_number : String
  x_coord : ℝ
  y_coord : ℝ
  building : String
  floor : Int
  elevator : Int

/-- route_optimizer.py lines 47-48. -/
noncomputable def rdist (a b : RLoc) : ℝ :=
  Real.sqrt ((a.x_coord - b.x_coord) ^ 2 + (a.y_coord - b.y_coord) ^ 2)

/-- route_optimizer.py lines 43-50: same-building, same-floor pairs (`i < j`),
weighted by Euclidean distance. -/
noncomputable def rule1Edges (locs : List RLoc) : List (String × String × ℝ) :=
  (pairsOf locs).filterMap fun ab =>
    if ab.1.building = ab.2.building ∧ ab.1.floor = ab.2.floor then
      some (ab.1.room_number, ab.2.room_number, rdist ab.1 ab.2)
    else none

/-- route_optimizer.py lines 52-60: pairs of elevator-equipped locations in
the same building, weighted `floor_diff * 10`. -/
noncomputable def rule2Edges (locs : List RLoc) : List (String × String × ℝ) :=
  (pairsOf (locs.filter fun l => l.elevator = 1)).filterMap fun ab =>
    if ab.1.building = ab.2.building then
      some (ab.1.room_number, ab.2.room_number, ((ab.1.floor - ab.2.floor).natAbs : ℝ) * 10)
    else none

/-- Update of a Python dict as an association list: overwrite in place if the
key exists, else append (keys stay in first-insertion order). -/
def updAssoc (l : List (String × String)) (k v : String) : List (String × String) :=
  if l.any (fun p => p.1 == k) then l.map fun p => if p.1 = k then (k, v) else p
  else l ++ [(k, v)]

/-- route_optimizer.py lines 62-66: `building_representatives`, iterating the
nodes in row order; a later floor-1 row overwrites an earlier one. -/
def building_representatives (locs : List RLoc) : List (String × String) :=
  locs.foldl
    (fun m loc => if loc.floor = 1 then updAssoc m loc.building loc.room_number else m) []

/-- The `floor` attribute stored on node `r` (networkx keeps the last write,
hence the reversed search). -/
def floorAttr (locs : List RLoc) (r : String) : Int :=
  ((locs.reverse.find? fun l => l.room_number == r).map (·.floor)).getD 0

/-- route_optimizer.py lines 67-72: every node whose building has a truthy
(non-empty) representative distinct from the node itself is linked to that
representative, weighted `|floor - rep_floor| * 10`. -/
noncomputable def rule3Edges (locs : List RLoc) : List (String × String × ℝ) :=
  locs.filterMap fun loc =>
    match (building_representatives locs).lookup loc.building with
    | none => none
    | some rep =>
      if rep ≠ "" ∧ loc.room_number ≠ rep then
        some (loc.room_number, rep, ((loc.floor - floorAttr locs rep).natAbs : ℝ) * 10)
      else none

/-- route_optimizer.py lines 73-79: every pair of distinct buildings'
representatives, at the flat constant weight 100. -/
noncomputable def rule4Edges (locs : List RLoc) : List (String × String × ℝ) :=
  (pairsOf (building_representatives locs)).map fun ab => (ab.1.2, ab.2.2, (100 : ℝ))

/-- `RouteOptimizer.create_graph` (route_optimizer.py lines 17-81).  The rule
blocks appear in reverse chronological order because `edgeWeight` takes the
first match, modelling the `add_edge` overwrite sequence (a later rule
overwrites an earlier weight for the same pair). -/
noncomputable def create_graph (locs : List RLoc) : WGraph where
  nodes := locs.map (·.room_number)
  edges := (rule4Edges locs).reverse ++ (rule3Edges locs).reverse
    ++ (rule2Edges locs).reverse ++ (rule1Edges locs).reverse

/-- The build_graph edge weight between the rooms `u` and `v`, read off the
location records themselves. -/
noncomputable def wfun (locs : List GLoc) (u v : String) : ℝ :=
  match locs.find? (·.room_number == u), locs.find? (·.room_number == v) with
  | some la, some lb => gWeight la lb
  | _, _ => 0

/-- The non-empty teacher names of one cell's assignment list. -/
def placed_teachers (assigns : List (String × Option Slot)) : List String :=
  assigns.filterMap fun a => a.2.bind fun s => if s.teacher = "" then none else some s.teacher

/-- The cost the scheduler charges for moving between two consecutive placed
rooms: the shortest-path cost, or 0 if the query fails (scheduler.py lines
138-143). -/
noncomputable def transition_cost (G : WGraph) (pr room : String) : ℝ :=
  match shortest_path G pr room with
  | none => 0
  | some path => pathCost G path

/-- Sum of transition costs along a room sequence. -/
noncomputable def chainSum (G : WGraph) : List String → ℝ
  | a :: b :: rest => transition_cost G a b + chainSum G (b :: rest)
  | _ => 0

/-- Modelled from the spec wording behind claim C6 (spec §4.2 step 3 and §7):
process every non-empty cell; if `prev_room` is set, add the path cost (0 on
failure); then always update `prev_room` to the cell's room — even when that
room is the empty string. -/
noncomputable def class_move_claim (G : WGraph) : Option String → List Slot → ℝ
  | _, [] => 0
  | prev, s :: rest =>
    (match prev with
     | none => 0
     | some pr => transition_cost G pr s.room) + class_move_claim G (some s.room) rest

/-- Modelled from the spec wording behind claim C6: the trial's total movement
with `prev_room` updated after every non-empty cell. -/
noncomputable def total_move_claim (G : WGraph) (classes : List String) (T : Timetable) : ℝ :=
  (classes.map fun c => class_move_claim G none (placed_of T c)).sum

/-- A deterministic oracle family: every random pick takes index 0 (so
`random.shuffle` keeps the list order and `random.choice` takes the head). -/
def O0 : Nat → Oracle := fun _ => ⟨fun _ _ => 0, fun _ _ _ => 0⟩

/-- One school-data row with an empty (falsy) teacher field shared by classes
`1` and `2`. -/
def data1 : List Row := [⟨"M", "", "1,2", "R", 1⟩]

/-- A well-formed single-row school data set (class `1`, teacher `T`). -/
def dataW : List Row := [⟨"M", "T", "1", "R", 1⟩]

/-- Two rows for the same class listing the identical subject `S` with hours
`n1` and `n2` and distinct teachers. -/
def data8 (n1 n2 : Int) : List Row :=
  [⟨"S", "T1", "1", "R", n1⟩, ⟨"S", "T2", "1", "R", n2⟩]

/-- One class, two distinct subjects, 3 total hours, no contention. -/
def dataC2 : List Row := [⟨"M", "T1", "1", "R1", 2⟩, ⟨"E", "T2", "1", "R2", 1⟩]

/-- One class placing rooms `A`, then the empty (falsy) room, then `B`. -/
def data6 : List Row :=
  [⟨"S1", "T1", "1", "A", 1⟩, ⟨"S2", "T2", "1", "", 1⟩, ⟨"S3", "T3", "1", "B", 1⟩]

/-- Two rooms one floor apart at the same coordinates (build_graph weight 5). -/
def locs6 : List GLoc := [⟨"b", 1, "A", 0, 0⟩, ⟨"b", 2, "B", 0, 0⟩]

/-- Two rooms on one floor at distance 5 (a 3-4-5 triangle). -/
def locs3 : List GLoc := [⟨"b", 1, "A", 0, 0⟩, ⟨"b", 1, "B", 3, 4⟩]

/-- A building whose only floor-1 location has an empty (falsy) room number. -/
def locs4 : List RLoc := [⟨"", 0, 0, "B", 1, 0⟩, ⟨"R2", 0, 0, "B", 2, 0⟩]

/-- A building with a truthy floor-1 representative and a floor-3 room. -/
def locs4w : List RLoc := [⟨"R1", 0, 0, "B", 1, 0⟩, ⟨"R2", 0, 0, "B", 3, 0⟩]

/-- The spec §8 scenario: building `A` floors 1 and 2, building `B` floor 1
with an elevator, no same-floor pair. -/
def locs5 : List RLoc :=
  [⟨"A-101", 0, 0, "A", 1, 0⟩, ⟨"A-201", 0, 0, "A", 2, 0⟩, ⟨"B-101", 0, 0, "B", 1, 1⟩]

/-- A single location for the no-edges edge case. -/
def locs9r : List RLoc := [⟨"R", 0, 0, "B", 1, 0⟩]

/-- A single location for the no-edges edge case of build_graph. -/
def locs9g : List GLoc := [⟨"b", 1, "R", 0, 0⟩]

/-- The match predicate of `edgeWeight` for the unordered pair `{u, v}`,
named so that the rule-block decomposition lemmas can speak about it. -/
def epred (u v : String) (e : String × String × ℝ) : Bool :=
  (e.1 == u && e.2.1 == v) || (e.1 == v && e.2.1 == u)

/- From here on: theorems.  First a stock of helper lemmas shared between the
claims, then one theorem (plus witness / counterexample) per claim. -/

theorem getD_mem_of_lt {α : Type} {l : List α} {i : Nat} (h : i < l.length) (d : α) :
    l.getD i d ∈ l := by
  rw [List.getD_eq_getElem l d h]
  exact List.getElem_mem h

theorem foldl_fixed {α β : Type} {f : α → β → α} {a : α} (h : ∀ b, f a b = a) :
    ∀ l : List β, l.foldl f a = a := by
  intro l
  induction l with
  | nil => rfl
  | cons x xs ih => rw [List.foldl_cons, h x, ih]

theorem generate_step_mem (G : WGraph) (cl : List String) (O : Nat → Oracle)
    (data : List Row) :
    ∀ (l : List Nat) (acc : Option (Timetable × ℝ)) (res : Timetable × ℝ),
      l.foldl (generate_step G cl O data) acc = some res →
      (∃ t, res.1 = trial_run (O t) data) ∨ acc = some res := by
  intro l
  induction l with
  | nil => intro acc res h; exact Or.inr h
  | cons x xs ih =>
    intro acc res h
    rw [List.foldl_cons] at h
    rcases ih _ _ h with h1 | h2
    · exact Or.inl h1
    · unfold generate_step at h2
      cases acc with
      | none =>
        simp only [Option.some.injEq] at h2
        exact Or.inl ⟨x, by rw [← h2]⟩
      | some bt =>
        simp only at h2
        by_cases hc : total_move G cl (trial_run (O x) data) < bt.2
        · rw [if_pos hc] at h2
          simp only [Option.some.injEq] at h2
          exact Or.inl ⟨x, by rw [← h2]⟩
        · rw [if_neg hc] at h2
          exact Or.inr h2

/-- Every timetable `generate` returns is the outcome of one of its trials. -/
theorem generate_eq_some {O : Nat → Oracle} {locs : List GLoc} {data : List Row} {n : Nat}
    {T : Timetable} (h : generate O locs data n = some T) :
    ∃ t, T = trial_run (O t) data := by
  unfold generate at h
  rcases Option.map_eq_some'.mp h with ⟨res, hres, hfst⟩
  rcases generate_step_mem _ _ O data _ _ _ hres with h1 | h2
  · obtain ⟨t, ht⟩ := h1
    exact ⟨t, by rw [← hfst, ht]⟩
  · cases h2

theorem run_cells_nil (o : Oracle) :
    ∀ (cells : List (String × Nat)) (st : TrialState),
      run_cells o [] cells st = (cells.map fun cell => (cell, []), st) := by
  intro cells
  induction cells with
  | nil => intro st; rfl
  | cons x xs ih => intro st; simp [run_cells, fill_cell, consFst, ih]

theorem trial_run_nil (o : Oracle) :
    trial_run o [] = grid_cells.map fun cell => (cell, []) := by
  unfold trial_run
  rw [show get_classes [] = [] from rfl, run_cells_nil]

/-- Claim C7 — counterexample.  `Scheduler.generate` never raises: with an
empty class list (no school data) and one trial it returns a timetable of
all-empty cells, and with a zero trial count it returns Python `None` (the
`none` value — an ordinary return, not an `InvalidInputError`). -/
theorem claim_C7_counterexample :
    generate O0 [] [] 1 = some (grid_cells.map fun cell => (cell, [])) ∧
    generate O0 [] dataW 0 = none := by
  refine ⟨?_, rfl⟩
  rw [show generate O0 [] [] 1
      = some (trial_run (O0 0) []) from rfl, trial_run_nil]

/-- Claim C7 (amended): `Scheduler.generate` performs no input validation at
all.  With an empty class list it still runs every trial and returns the
all-empty timetable, for any trial count `≥ 1`; with a zero trial count it
returns `None` as an ordinary value.  No error is ever raised. -/
theorem claim_C7 (O : Nat → Oracle) (locs : List GLoc) (n : Nat) (hn : 1 ≤ n)
    (data : List Row) :
    generate O locs [] n = some (grid_cells.map fun cell => (cell, [])) ∧
    generate O locs data 0 = none := by
  refine ⟨?_, rfl⟩
  obtain ⟨k, rfl⟩ : ∃ k, n = k + 1 := ⟨n - 1, by omega⟩
  unfold generate
  rw [List.range_succ_eq_map, List.foldl_cons]
  have htr : ∀ o : Oracle, trial_run o [] = grid_cells.map fun cell => (cell, []) :=
    fun o => trial_run_nil o
  have hstep : (generate_step (build_graph locs) (get_classes []) O [] none 0)
      = some (grid_cells.map fun cell => (cell, []),
              total_move (build_graph locs) (get_classes [])
                (grid_cells.map fun cell => (cell, []))) := by
    unfold generate_step
    rw [htr]
  have hfix : ∀ b, generate_step (build_graph locs) (get_classes []) O []
      (some (grid_cells.map fun cell => (cell, []),
             total_move (build_graph locs) (get_classes [])
               (grid_cells.map fun cell => (cell, [])))) b
      = some (grid_cells.map fun cell => (cell, []),
              total_move (build_graph locs) (get_classes [])
                (grid_cells.map fun cell => (cell, []))) := by
    intro b
    unfold generate_step
    rw [htr]
    simp
  rw [hstep, foldl_fixed hfix]
  rfl

/-- Witness for `claim_C7` at a concrete input. -/
theorem claim_C7_witness :
    1 ≤ 1 ∧
    (generate O0 [] [] 1 = some (grid_cells.map fun cell => (cell, [])) ∧
     generate O0 [] dataW 0 = none) :=
  ⟨Nat.le_refl 1, claim_C7 O0 [] 1 (Nat.le_refl 1) dataW⟩

/-- Claim C8 — counterexample.  Two rows for class `1` both list subject `S`
with `weekly_hours` 1, so the claim predicts `1 + 1 = 2` placed slots in the
contention-free 30-cell grid; the code builds a pool of two `S` slots but the
second row's count overwrites the first (`subject_count[row['과목']] = count`),
so exactly one slot of `S` is placed. -/
theorem claim_C8_counterexample :
    generate O0 [] (data8 1 1) 1 = some (trial_run (O0 0) (data8 1 1)) ∧
    placed_count (trial_run (O0 0) (data8 1 1)) "1" "S" = 1 ∧
    placed_count (trial_run (O0 0) (data8 1 1)) "1" "S" ≠ 1 + 1 :=
  ⟨rfl, by decide, by decide⟩

/-- Claim C1 — counterexample.  One row with an empty (falsy) teacher field
serving classes `1` and `2`: the code only adds truthy teacher names to
`used_teachers`, so in cell (월요일, period 0) both classes are assigned a slot
carrying the same teacher name `""` — a teacher name assigned to two different
classes in the same cell. -/
theorem claim_C1_counterexample :
    generate O0 [] data1 1 = some (trial_run (O0 0) data1) ∧
    cell_assigns (trial_run (O0 0) data1) "월요일" 0 =
      [("1", some ⟨"M", "", "R"⟩), ("2", some ⟨"M", "", "R"⟩)] ∧
    ¬ (cell_teachers (trial_run (O0 0) data1) "월요일" 0).Nodup :=
  ⟨rfl, by decide, by decide⟩

theorem chosen_mem {avail : List Slot} (h : ¬ avail = []) (k : Nat) :
    chosen avail k ∈ avail := by
  have hlen : 0 < avail.length := List.length_pos.mpr h
  exact getD_mem_of_lt (Nat.mod_lt _ hlen) default

theorem mem_avail_of {st : TrialState} {c : String} {used : List String} {slot : Slot}
    (h : slot ∈ avail_of st c used) :
    slot ∈ st.pool c ∧ 0 < st.count c slot.subject ∧ slot.teacher ∉ used := by
  have h' := List.mem_filter.mp h
  have hb := h'.2
  simp only [Bool.and_eq_true, Bool.not_eq_true', decide_eq_true_eq] at hb
  refine ⟨h'.1, hb.1, ?_⟩
  intro hm
  rw [List.contains_eq_any_beq] at hb
  have := hb.2
  simp [List.any_eq_false] at this
  exact this _ hm rfl

theorem fill_cell_teachers_nodup (choice : String → Nat) :
    ∀ (classes : List String) (st : TrialState) (used : List String),
      used.Nodup →
      (placed_teachers (fill_cell choice classes st used).1 ++ used).Nodup := by
  intro classes
  induction classes with
  | nil => intro st used h; simpa [fill_cell, placed_teachers] using h
  | cons c rest ih =>
    intro st used h
    rw [fill_cell]
    by_cases he : avail_of st c used = []
    · rw [if_pos he]
      simpa [consFst, placed_teachers] using ih st used h
    · rw [if_neg he]
      have hmem : chosen (avail_of st c used) (choice c) ∈ avail_of st c used :=
        chosen_mem he _
      obtain ⟨-, -, hnotused⟩ := mem_avail_of hmem
      by_cases ht : (chosen (avail_of st c used) (choice c)).teacher = ""
      · rw [show upd_used used (chosen (avail_of st c used) (choice c)) = used from by
          rw [upd_used, if_pos ht]]
        simpa [consFst, placed_teachers, ht] using
          ih (place_update st c (chosen (avail_of st c used) (choice c))) used h
      · have hused' : ((chosen (avail_of st c used) (choice c)).teacher :: used).Nodup :=
          List.nodup_cons.mpr ⟨hnotused, h⟩
        rw [show upd_used used (chosen (avail_of st c used) (choice c))
            = (chosen (avail_of st c used) (choice c)).teacher :: used from by
          rw [upd_used, if_neg ht]]
        have hnext := ih (place_update st c (chosen (avail_of st c used) (choice c)))
          ((chosen (avail_of st c used) (choice c)).teacher :: used) hused'
        simpa [consFst, placed_teachers, ht] using List.perm_middle.nodup hnext

theorem run_cells_teachers_nodup (o : Oracle) (classes : List String) :
    ∀ (cells : List (String × Nat)) (st : TrialState) (d : String) (p : Nat),
      (placed_teachers (cell_assigns (run_cells o classes cells st).1 d p)).Nodup := by
  intro cells
  induction cells with
  | nil => intro st d p; simp [run_cells, cell_assigns, placed_teachers]
  | cons x xs ih =>
    intro st d p
    rw [run_cells]
    by_cases hx : (x == (d, p)) = true
    · rw [show cell_assigns (consFst (x, (fill_cell (o.choice x.1 x.2) classes st []).1)
            (run_cells o classes xs (fill_cell (o.choice x.1 x.2) classes st []).2)).1 d p
          = (fill_cell (o.choice x.1 x.2) classes st []).1 by
        simp [cell_assigns, consFst, List.find?_cons_of_pos, hx]]
      simpa using fill_cell_teachers_nodup (o.choice x.1 x.2) classes st [] List.nodup_nil
    · rw [show cell_assigns (consFst (x, (fill_cell (o.choice x.1 x.2) classes st []).1)
            (run_cells o classes xs (fill_cell (o.choice x.1 x.2) classes st []).2)).1 d p
          = cell_assigns (run_cells o classes xs
              (fill_cell (o.choice x.1 x.2) classes st []).2).1 d p by
        simp [cell_assigns, consFst, List.find?_cons_of_neg, hx]]
      exact ih _ d p

/-- Claim C1 (amended): in any timetable returned by `Scheduler.generate`, no
NON-EMPTY teacher name is assigned to two different classes in the same
(day, period) cell.  (Slots whose teacher field is falsy escape the
`used_teachers` bookkeeping, hence the restriction — see the counterexample.) -/
theorem claim_C1 (O : Nat → Oracle) (locs : List GLoc) (data : List Row) (n : Nat)
    (T : Timetable) (h : generate O locs data n = some T) (d : String) (p : Nat) :
    (placed_teachers (cell_assigns T d p)).Nodup := by
  obtain ⟨t, rfl⟩ := generate_eq_some h
  exact run_cells_teachers_nodup (O t) _ _ _ d p

/-- Witness for `claim_C1` at a concrete input. -/
theorem claim_C1_witness :
    generate O0 [] dataW 1 = some (trial_run (O0 0) dataW) ∧
    (placed_teachers (cell_assigns (trial_run (O0 0) dataW) "월요일" 0)).Nodup :=
  ⟨rfl, claim_C1 O0 [] dataW 1 (trial_run (O0 0) dataW) rfl "월요일" 0⟩

theorem insertSorted_perm (a : String) :
    ∀ l : List String, List.Perm (insertSorted a l) (a :: l) := by
  intro l
  induction l with
  | nil => rfl
  | cons b bs ih =>
    rw [insertSorted]
    by_cases hb : strLt b a = true
    · rw [if_pos hb]
      exact (ih.cons b).trans (List.Perm.swap a b bs)
    · rw [if_neg hb]

theorem sortStrings_perm : ∀ l : List String, List.Perm (sortStrings l) l := by
  intro l
  induction l with
  | nil => rfl
  | cons x xs ih => exact (insertSorted_perm x (sortStrings xs)).trans (ih.cons x)

theorem get_classes_nodup (data : List Row) : (get_classes data).Nodup :=
  (sortStrings_perm _).symm.nodup (List.nodup_dedup _)

theorem place_update_count_other {st : TrialState} {c' c : String} (slot : Slot)
    (h : ¬ c = c') : (place_update st c' slot).count c = st.count c := if_neg h

theorem place_update_pool_other {st : TrialState} {c' c : String} (slot : Slot)
    (h : ¬ c = c') : (place_update st c' slot).pool c = st.pool c := if_neg h

theorem place_update_count_self {st : TrialState} {c : String} (slot : Slot) :
    (place_update st c slot).count c
      = fun s => if s = slot.subject then st.count c s - 1 else st.count c s := if_pos rfl

theorem place_update_pool_self {st : TrialState} {c : String} (slot : Slot) :
    (place_update st c slot).pool c = (st.pool c).erase slot := if_pos rfl

theorem fill_cell_state_other (choice : String → Nat) (c : String) :
    ∀ (classes : List String) (st : TrialState) (used : List String), c ∉ classes →
      ((fill_cell choice classes st used).2).pool c = st.pool c
      ∧ ((fill_cell choice classes st used).2).count c = st.count c := by
  intro classes
  induction classes with
  | nil => intro st used _; exact ⟨rfl, rfl⟩
  | cons c' rest ih =>
    intro st used hc
    have hne : ¬ c = c' := fun he => hc (he ▸ List.mem_cons_self c' rest)
    have hrest : c ∉ rest := fun hm => hc (List.mem_cons_of_mem c' hm)
    rw [fill_cell]
    by_cases he : avail_of st c' used = []
    · rw [if_pos he]
      exact ih st used hrest
    · rw [if_neg he]
      have hupd := ih (place_update st c' (chosen (avail_of st c' used) (choice c')))
        (upd_used used (chosen (avail_of st c' used) (choice c'))) hrest
      rw [consFst]
      refine ⟨?_, ?_⟩
      · rw [hupd.1, place_update_pool_other _ hne]
      · rw [hupd.2, place_update_count_other _ hne]

theorem fill_cell_count (choice : String → Nat) (c S : String) :
    ∀ (classes : List String) (st : TrialState) (used : List String), classes.Nodup →
      ((((fill_cell choice classes st used).1.find? fun a => a.1 == c).bind (·.2) = none →
        ((fill_cell choice classes st used).2).count c S = st.count c S)
      ∧ (∀ slot,
          (((fill_cell choice classes st used).1.find? fun a => a.1 == c).bind (·.2)
            = some slot →
          0 < st.count c slot.subject
          ∧ ((fill_cell choice classes st used).2).count c S
              = st.count c S - (if S = slot.subject then 1 else 0)))) := by
  intro classes
  induction classes with
  | nil =>
    intro st used _
    exact ⟨fun _ => rfl, fun slot h => by simp [fill_cell] at h⟩
  | cons c' rest ih =>
    intro st used hn
    have hn' : rest.Nodup := (List.nodup_cons.mp hn).2
    by_cases hcc : c' = c
    · have hrest : c ∉ rest := hcc ▸ (List.nodup_cons.mp hn).1
      rw [fill_cell]
      by_cases he : avail_of st c' used = []
      · rw [if_pos he, consFst]
        constructor
        · intro _
          exact (fill_cell_state_other choice c rest st used hrest).2 ▸ rfl
        · intro slot hs
          rw [List.find?_cons_of_pos _ (by simp [hcc])] at hs
          simp at hs
      · rw [if_neg he, consFst]
        have hmem := chosen_mem he (choice c')
        obtain ⟨-, hpos, -⟩ := mem_avail_of hmem
        constructor
        · intro hnone
          rw [List.find?_cons_of_pos _ (by simp [hcc])] at hnone
          simp at hnone
        · intro slot hs
          rw [List.find?_cons_of_pos _ (by simp [hcc])] at hs
          simp only [Option.some_bind] at hs
          cases hs
          refine ⟨hcc ▸ hpos, ?_⟩
          have hst := (fill_cell_state_other choice c rest
            (place_update st c' (chosen (avail_of st c' used) (choice c')))
            (upd_used used (chosen (avail_of st c' used) (choice c'))) hrest).2
          rw [hst, ← hcc, place_update_count_self
            (chosen (avail_of st c' used) (choice c'))]
          simp only []
          by_cases hS : S = (chosen (avail_of st c' used) (choice c')).subject
          · rw [if_pos hS, if_pos hS]
          · rw [if_neg hS, if_neg hS]
            omega
    · rw [fill_cell]
      by_cases he : avail_of st c' used = []
      · rw [if_pos he, consFst]
        have hrec := ih st used hn'
        constructor
        · intro hnone
          rw [List.find?_cons_of_neg _ (by simp [hcc])] at hnone
          exact hrec.1 hnone
        · intro slot hs
          rw [List.find?_cons_of_neg _ (by simp [hcc])] at hs
          exact hrec.2 slot hs
      · rw [if_neg he, consFst]
        have hstc : (place_update st c' (chosen (avail_of st c' used) (choice c'))).count c
            = st.count c :=
          place_update_count_other _ (fun h => hcc h.symm)
        have hrec := ih (place_update st c' (chosen (avail_of st c' used) (choice c')))
          (upd_used used (chosen (avail_of st c' used) (choice c'))) hn'
        constructor
        · intro hnone
          rw [List.find?_cons_of_neg _ (by simp [hcc])] at hnone
          rw [hrec.1 hnone, hstc]
        · intro slot hs
          rw [List.find?_cons_of_neg _ (by simp [hcc])] at hs
          have hres := hrec.2 slot hs
          rw [hstc] at hres
          exact hres

theorem placed_of_cons (cell : (String × Nat) × List (String × Option Slot)) (T : Timetable)
    (c : String) :
    placed_of (cell :: T) c =
      match (cell.2.find? fun a => a.1 == c).bind (·.2) with
      | none => placed_of T c
      | some s => s :: placed_of T c := by
  rw [placed_of, List.filterMap_cons]
  cases h : (cell.2.find? fun a => a.1 == c).bind (·.2) <;> simp [placed_of, h]

theorem run_cells_count (o : Oracle) (classes : List String) (hn : classes.Nodup)
    (c S : String) :
    ∀ (cells : List (String × Nat)) (st : TrialState),
      (0 ≤ st.count c S →
        ((placed_of (run_cells o classes cells st).1 c).countP
            (fun slot => slot.subject == S) : Int)
          = st.count c S - ((run_cells o classes cells st).2).count c S
        ∧ 0 ≤ ((run_cells o classes cells st).2).count c S)
      ∧ (st.count c S ≤ 0 →
        (placed_of (run_cells o classes cells st).1 c).countP
            (fun slot => slot.subject == S) = 0
        ∧ ((run_cells o classes cells st).2).count c S = st.count c S) := by
  intro cells
  induction cells with
  | nil =>
    intro st
    constructor
    · intro h0
      exact ⟨by simp [run_cells, placed_of], h0⟩
    · intro h0
      exact ⟨by simp [run_cells, placed_of], rfl⟩
  | cons x xs ih =>
    intro st
    rw [run_cells, consFst]
    have hfc := fill_cell_count (o.choice x.1 x.2) c S classes st [] hn
    have hrec := ih (fill_cell (o.choice x.1 x.2) classes st []).2
    rw [placed_of_cons]
    cases hA : ((fill_cell (o.choice x.1 x.2) classes st []).1.find?
        fun a => a.1 == c).bind (·.2) with
    | none =>
      have hcount := hfc.1 hA
      simp only []
      rw [hcount] at hrec
      constructor
      · intro h0
        exact hrec.1 h0
      · intro h0
        exact hrec.2 h0
    | some slot =>
      have hp := hfc.2 slot hA
      simp only [List.countP_cons]
      by_cases hS : (slot.subject == S) = true
      · have hSS : S = slot.subject := (beq_iff_eq.mp hS).symm
        have hgt : 0 < st.count c S := hSS ▸ hp.1
        have hcount : ((fill_cell (o.choice x.1 x.2) classes st []).2).count c S
            = st.count c S - 1 := by
          rw [hp.2, if_pos hSS]
        rw [hcount] at hrec
        constructor
        · intro h0
          have h1 : (0 : Int) ≤ st.count c S - 1 := by omega
          have := hrec.1 h1
          rw [if_pos hS]
          constructor
          · push_cast
            omega
          · exact this.2
        · intro h0
          omega
      · have hSS : ¬ S = slot.subject := fun h => hS (by rw [h]; exact beq_self_eq_true _)
        have hcount : ((fill_cell (o.choice x.1 x.2) classes st []).2).count c S
            = st.count c S := by
          rw [hp.2, if_neg hSS]
          omega
        rw [hcount] at hrec
        rw [if_neg hS]
        constructor
        · intro h0
          have := hrec.1 h0
          constructor
          · push_cast
            omega
          · exact this.2
        · intro h0
          have := hrec.2 h0
          simpa using this

theorem subject_count_aux_preserve (S : String) :
    ∀ (rows : List Row) (m : String → Int), S ∉ rows.map Row.subject →
      (rows.foldl (fun m row => fun s => if s = row.subject then row.hours else m s) m) S
        = m S := by
  intro rows
  induction rows with
  | nil => intro m _; rfl
  | cons r rest ih =>
    intro m hS
    rw [List.foldl_cons]
    have h1 : S ∉ rest.map Row.subject := fun h => hS (by
      rw [List.map_cons]; exact List.mem_cons_of_mem _ h)
    have h2 : ¬ S = r.subject := fun h => hS (by
      rw [List.map_cons, h]; exact List.mem_cons_self _ _)
    rw [ih _ h1]
    exact if_neg h2

theorem subject_count_base_irrel (S : String) :
    ∀ (rows : List Row), S ∈ rows.map Row.subject → ∀ (m1 m2 : String → Int),
      (rows.foldl (fun m row => fun s => if s = row.subject then row.hours else m s) m1) S
      = (rows.foldl (fun m row => fun s => if s = row.subject then row.hours else m s) m2)
          S := by
  intro rows
  induction rows with
  | nil => intro h; simp at h
  | cons r rest ih =>
    intro hS m1 m2
    rw [List.foldl_cons, List.foldl_cons]
    by_cases hmem : S ∈ rest.map Row.subject
    · exact ih hmem _ _
    · have hS' : S = r.subject := by
        rw [List.map_cons] at hS
        rcases List.mem_cons.mp hS with h | h
        · exact h
        · exact absurd h hmem
      rw [subject_count_aux_preserve _ _ _ hmem, subject_count_aux_preserve _ _ _ hmem,
        if_pos hS', if_pos hS']

theorem subject_count_eq :
    ∀ (rows : List Row), (rows.map Row.subject).Nodup →
      ∀ row ∈ rows, subject_count_of rows row.subject = row.hours := by
  intro rows
  induction rows with
  | nil => intro _ row h; cases h
  | cons r rest ih =>
    intro hnd row hrow
    rw [List.map_cons, List.nodup_cons] at hnd
    rw [subject_count_of, List.foldl_cons]
    rcases List.mem_cons.mp hrow with rfl | hmem
    · rw [subject_count_aux_preserve _ _ _ hnd.1]
      exact if_pos rfl
    · have hS : row.subject ∈ rest.map Row.subject := List.mem_map_of_mem _ hmem
      rw [subject_count_base_irrel _ _ hS _ (fun _ => 0)]
      exact ih hnd.2 row hmem

theorem subject_count_zero {S : String} {rows : List Row}
    (h : S ∉ rows.map Row.subject) : subject_count_of rows S = 0 :=
  subject_count_aux_preserve S rows _ h

theorem subject_count_le_countP (S : String) :
    ∀ (rows : List Row) (m : String → Int),
      ((rows.foldl (fun m row => fun s => if s = row.subject then row.hours else m s) m)
          S).toNat
        ≤ (subject_slots_of rows).countP (fun slot => slot.subject == S) + (m S).toNat := by
  intro rows
  induction rows with
  | nil => intro m; simp [subject_slots_of]
  | cons r rest ih =>
    intro m
    rw [List.foldl_cons]
    have hcount : (subject_slots_of (r :: rest)).countP (fun slot => slot.subject == S)
        = (if r.subject = S then r.hours.toNat else 0)
          + (subject_slots_of rest).countP (fun slot => slot.subject == S) := by
      rw [subject_slots_of, List.flatMap_cons, List.countP_append]
      congr 1
      by_cases hr : r.subject = S
      · rw [if_pos hr]
        simp [List.countP_replicate, hr]
      · rw [if_neg hr]
        simp [List.countP_replicate, hr]
    rw [hcount]
    have := ih (fun s => if s = r.subject then r.hours else m s)
    refine le_trans this ?_
    clear this ih hcount
    beta_reduce
    by_cases hr : S = r.subject
    · rw [if_pos hr, if_pos hr.symm]
      omega
    · rw [if_neg hr, if_neg (fun h => hr h.symm)]
      omega

theorem subject_count_nonneg_aux (S : String) :
    ∀ (rows : List Row) (m : String → Int), (∀ s, 0 ≤ m s) → (∀ r ∈ rows, 0 ≤ r.hours) →
      0 ≤ (rows.foldl (fun m row => fun s => if s = row.subject then row.hours else m s) m)
          S := by
  intro rows
  induction rows with
  | nil => intro m hm _; exact hm S
  | cons r rest ih =>
    intro m hm hr
    rw [List.foldl_cons]
    refine ih _ (fun s => ?_) (fun x hx => hr x (List.mem_cons_of_mem _ hx))
    by_cases hs : s = r.subject
    · rw [if_pos hs]
      exact hr r (List.mem_cons_self _ _)
    · rw [if_neg hs]
      exact hm s

theorem subject_count_nonneg {rows : List Row} (h : ∀ r ∈ rows, 0 ≤ r.hours) (S : String) :
    0 ≤ subject_count_of rows S :=
  subject_count_nonneg_aux S rows _ (fun _ => le_refl 0) h

theorem perm_getD_cons_eraseIdx {α : Type} (d : α) :
    ∀ (l : List α) (i : Nat), i < l.length →
      List.Perm l (l.getD i d :: l.eraseIdx i) := by
  intro l
  induction l with
  | nil => intro i h; simp at h
  | cons a tl ih =>
    intro i h
    cases i with
    | zero => exact List.Perm.refl _
    | succ j =>
      have hj : j < tl.length := by simpa using h
      have hperm := ih j hj
      exact (hperm.cons a).trans (List.Perm.swap (tl.getD j d) a (tl.eraseIdx j))

theorem shuffleGo_perm (r : Nat → Nat) :
    ∀ (fuel : Nat) (l : List Slot) (k : Nat), l.length ≤ fuel →
      List.Perm (shuffleGo r fuel k l) l := by
  intro fuel
  induction fuel with
  | zero =>
    intro l k h
    rw [List.length_eq_zero.mp (Nat.le_zero.mp h)]
    rfl
  | succ f ih =>
    intro l k h
    cases l with
    | nil => rfl
    | cons a tl =>
      rw [shuffleGo]
      have hi : r k % (a :: tl).length < (a :: tl).length := Nat.mod_lt _ (by simp)
      have hlen : ((a :: tl).eraseIdx (r k % (a :: tl).length)).length ≤ f := by
        rw [List.length_eraseIdx, if_pos hi]
        simp only [List.length_cons] at h ⊢
        omega
      exact ((ih _ (k + 1) hlen).cons _).trans
        (perm_getD_cons_eraseIdx default _ _ hi).symm

theorem shuffleWith_perm (r : Nat → Nat) (k : Nat) (l : List Slot) :
    List.Perm (shuffleWith r k l) l :=
  shuffleGo_perm r l.length l k (le_refl _)

theorem avail_of_nil_used (st : TrialState) (c : String) :
    avail_of st c [] = (st.pool c).filter fun slot =>
      decide (0 < st.count c slot.subject) := by
  rw [avail_of]
  congr 1
  funext slot
  simp

theorem run_cells_single_zero (o : Oracle) (c : String) :
    ∀ (cells : List (String × Nat)) (st : TrialState),
      (∀ S, st.count c S = 0) →
      ∀ S, ((run_cells o [c] cells st).2).count c S = st.count c S := by
  intro cells
  induction cells with
  | nil => intro st h S; rfl
  | cons x xs ih =>
    intro st h S
    rw [run_cells, consFst]
    have hav : avail_of st c [] = [] := by
      rw [avail_of_nil_used]
      refine List.filter_eq_nil_iff.mpr ?_
      intro slot _
      simp [h slot.subject]
    rw [fill_cell, if_pos hav]
    exact ih st h S

theorem sum_map_decrement :
    ∀ (L : List String), L.Nodup → ∀ (f g : String → Nat) (S0 : String), S0 ∈ L →
      g S0 + 1 = f S0 → (∀ S ∈ L, ¬ S = S0 → g S = f S) →
      (L.map g).sum + 1 = (L.map f).sum := by
  intro L
  induction L with
  | nil => intro _ f g S0 h; cases h
  | cons x rest ih =>
    intro hnd f g S0 hS0 hg hother
    rw [List.map_cons, List.map_cons, List.sum_cons, List.sum_cons]
    rcases List.mem_cons.mp hS0 with rfl | hmem
    · have hx : ∀ S ∈ rest, g S = f S := by
        intro S hS
        refine hother S (List.mem_cons_of_mem _ hS) ?_
        intro he
        exact (List.nodup_cons.mp hnd).1 (he ▸ hS)
      rw [List.map_congr_left hx]
      omega
    · have hxne : ¬ x = S0 := fun he => (List.nodup_cons.mp hnd).1 (he ▸ hmem)
      rw [hother x (List.mem_cons_self _ _) hxne]
      have := ih (List.nodup_cons.mp hnd).2 f g S0 hmem hg
        (fun S hS hne => hother S (List.mem_cons_of_mem _ hS) hne)
      omega

theorem run_cells_single_exhaust (o : Oracle) (c : String) (L : List String)
    (hL : L.Nodup) :
    ∀ (cells : List (String × Nat)) (st : TrialState),
      (∀ S, 0 ≤ st.count c S) →
      (∀ S, (st.count c S).toNat ≤ (st.pool c).countP (fun slot => slot.subject == S)) →
      (∀ S, S ∉ L → st.count c S = 0) →
      (∀ slot ∈ st.pool c, slot.subject ∈ L) →
      (L.map fun S => (st.count c S).toNat).sum ≤ cells.length →
      ∀ S, ((run_cells o [c] cells st).2).count c S = 0 := by
  intro cells
  induction cells with
  | nil =>
    intro st hpos hle hout _ hsum S
    have hzero : ∀ S' ∈ L, (st.count c S').toNat = 0 := by
      intro S' hS'
      have := List.sum_eq_zero_iff.mp (Nat.le_zero.mp (by simpa using hsum))
      exact this _ (List.mem_map_of_mem _ hS')
    show st.count c S = 0
    by_cases hmem : S ∈ L
    · have h1 := hzero S hmem
      have h2 := hpos S
      omega
    · exact hout S hmem
  | cons x xs ih =>
    intro st hpos hle hout hsub hsum S
    rw [run_cells, consFst]
    by_cases hav : avail_of st c [] = []
    · have hall : ∀ S', st.count c S' = 0 := by
        intro S'
        by_cases hmem : S' ∈ L
        · by_contra hne
          have hgt : 0 < st.count c S' := lt_of_le_of_ne (hpos S') (Ne.symm hne)
          have hcp : 0 < (st.pool c).countP (fun slot => slot.subject == S') := by
            have := hle S'
            omega
          obtain ⟨slot, hmemp, hpred⟩ := List.countP_pos_iff.mp hcp
          have hsubj : slot.subject = S' := beq_iff_eq.mp hpred
          have : slot ∈ avail_of st c [] := by
            rw [avail_of_nil_used]
            refine List.mem_filter.mpr ⟨hmemp, ?_⟩
            simp [hsubj, hgt]
          rw [hav] at this
          cases this
        · exact hout S' hmem
      rw [fill_cell, if_pos hav]
      show (run_cells o [c] xs st).2.count c S = 0
      rw [run_cells_single_zero o c xs st hall S, hall S]
    · rw [fill_cell, if_neg hav]
      have hmemav := chosen_mem hav (o.choice x.1 x.2 c)
      have hmemp : chosen (avail_of st c []) (o.choice x.1 x.2 c) ∈ st.pool c :=
        (mem_avail_of hmemav).1
      have hgt := (mem_avail_of hmemav).2.1
      have hsubjL : (chosen (avail_of st c []) (o.choice x.1 x.2 c)).subject ∈ L :=
        hsub _ hmemp
      have hperm := List.perm_cons_erase hmemp
      refine ih (place_update st c (chosen (avail_of st c []) (o.choice x.1 x.2 c)))
        ?_ ?_ ?_ ?_ ?_ S
      · intro S'
        rw [place_update_count_self]
        by_cases hS' : S' = (chosen (avail_of st c []) (o.choice x.1 x.2 c)).subject
        · simp only [if_pos hS']
          have := hpos S'
          rw [hS'] at this ⊢
          omega
        · simp only [if_neg hS']
          exact hpos S'
      · intro S'
        rw [place_update_count_self, place_update_pool_self]
        have hcount : (st.pool c).countP (fun slot => slot.subject == S')
            = ((if (chosen (avail_of st c []) (o.choice x.1 x.2 c)).subject == S'
                then 1 else 0)
              + ((st.pool c).erase
                  (chosen (avail_of st c []) (o.choice x.1 x.2 c))).countP
                  (fun slot => slot.subject == S')) := by
          rw [hperm.countP_eq]
          rw [List.countP_cons]
          omega
        by_cases hS' : S' = (chosen (avail_of st c []) (o.choice x.1 x.2 c)).subject
        · simp only [if_pos hS']
          have h1 := hle S'
          rw [hcount] at h1
          rw [if_pos (by rw [hS']; exact beq_self_eq_true _)] at h1
          have h2 := hpos S'
          rw [hS'] at h2 ⊢
          rw [← hS'] at hgt ⊢
          omega
        · simp only [if_neg hS']
          have h1 := hle S'
          rw [hcount] at h1
          rw [if_neg (by
            intro hb
            exact hS' (beq_iff_eq.mp hb).symm)] at h1
          omega
      · intro S' hS'
        rw [place_update_count_self]
        have hne : ¬ S' = (chosen (avail_of st c []) (o.choice x.1 x.2 c)).subject :=
          fun he => hS' (he ▸ hsubjL)
        beta_reduce
        rw [if_neg hne]
        exact hout S' hS'
      · intro slot hslot
        rw [place_update_pool_self] at hslot
        exact hsub slot (List.mem_of_mem_erase hslot)
      · have hdec := sum_map_decrement L hL
          (fun S' => (st.count c S').toNat)
          (fun S' => (((place_update st c
            (chosen (avail_of st c []) (o.choice x.1 x.2 c))).count c) S').toNat)
          (chosen (avail_of st c []) (o.choice x.1 x.2 c)).subject hsubjL
          (by
            rw [place_update_count_self]
            beta_reduce
            rw [if_pos rfl]
            omega)
          (by
            intro S' _ hne
            rw [place_update_count_self]
            beta_reduce
            rw [if_neg hne])
        simp only [List.length_cons] at hsum
        omega

theorem init_pool_perm (o : Oracle) (data : List Row) (c : String) :
    List.Perm ((init_state o data).pool c) (subject_slots_of (class_rows data c)) :=
  shuffleWith_perm _ _ _

theorem subject_slots_subject_mem {rows : List Row} {slot : Slot}
    (h : slot ∈ subject_slots_of rows) : slot.subject ∈ rows.map Row.subject := by
  rw [subject_slots_of] at h
  obtain ⟨row, hrow, hslot⟩ := List.mem_flatMap.mp h
  rw [List.eq_of_mem_replicate hslot]
  exact List.mem_map_of_mem _ hrow

/-- Claim C2: for every class, and every subject whose `weekly_hours` is well
defined (the class's rows list pairwise distinct subjects), the number of
placed slots in a timetable returned by `Scheduler.generate` is at most
`weekly_hours`; and it equals `weekly_hours` whenever the class is the only
class (so teacher contention can never block a placement), hours are
non-negative, and the 30 weekly cells cover the class's total required hours. -/
theorem claim_C2 (O : Nat → Oracle) (locs : List GLoc) (data : List Row) (n : Nat)
    (T : Timetable) (h : generate O locs data n = some T) (c : String) (row : Row)
    (hrow : row ∈ class_rows data c)
    (hnd : ((class_rows data c).map Row.subject).Nodup) :
    placed_count T c row.subject ≤ row.hours.toNat ∧
    (get_classes data = [c] →
      (∀ r ∈ data, 0 ≤ r.hours) →
      ((class_rows data c).map fun r => r.hours.toNat).sum ≤ grid_cells.length →
      placed_count T c row.subject = row.hours.toNat) := by
  obtain ⟨t, rfl⟩ := generate_eq_some h
  have hcnt := run_cells_count (O t) (get_classes data) (get_classes_nodup data) c
    row.subject grid_cells (init_state (O t) data)
  have hinit : (init_state (O t) data).count c row.subject = row.hours :=
    subject_count_eq (class_rows data c) hnd row hrow
  constructor
  · by_cases hpos : 0 ≤ row.hours
    · have h1 := hcnt.1 (by rw [hinit]; exact hpos)
      rw [hinit] at h1
      show ((placed_of (run_cells (O t) (get_classes data) grid_cells
        (init_state (O t) data)).1 c).countP fun slot => slot.subject == row.subject)
        ≤ row.hours.toNat
      have h2 := h1.1
      have h3 := h1.2
      omega
    · have h1 := hcnt.2 (by rw [hinit]; omega)
      show ((placed_of (run_cells (O t) (get_classes data) grid_cells
        (init_state (O t) data)).1 c).countP fun slot => slot.subject == row.subject)
        ≤ row.hours.toNat
      have h2 := h1.1
      omega
  · intro hsingle hpos hsum
    have hrowpos : 0 ≤ row.hours := hpos row (List.mem_of_mem_filter hrow)
    have hrows_pos : ∀ r ∈ class_rows data c, 0 ≤ r.hours :=
      fun r hr => hpos r (List.mem_of_mem_filter hr)
    have hpool := init_pool_perm (O t) data c
    have hfin := run_cells_single_exhaust (O t) c
      ((class_rows data c).map Row.subject).dedup (List.nodup_dedup _)
      grid_cells (init_state (O t) data)
      (fun S => subject_count_nonneg hrows_pos S)
      (fun S => by
        have h1 := subject_count_le_countP S (class_rows data c) (fun _ => 0)
        have h2 := hpool.countP_eq (fun slot => slot.subject == S)
        show (subject_count_of (class_rows data c) S).toNat
          ≤ ((init_state (O t) data).pool c).countP (fun slot => slot.subject == S)
        rw [h2]
        rw [subject_count_of]
        simpa using h1)
      (fun S hS => subject_count_zero (fun hm => hS (List.mem_dedup.mpr hm)))
      (fun slot hslot => List.mem_dedup.mpr
        (subject_slots_subject_mem (hpool.mem_iff.mp hslot)))
      (by
        rw [List.dedup_eq_self.mpr hnd, List.map_map]
        have hmc : ((class_rows data c).map
            ((fun S => ((init_state (O t) data).count c S).toNat) ∘ Row.subject))
            = (class_rows data c).map fun r => r.hours.toNat := by
          refine List.map_congr_left ?_
          intro r hr
          show (subject_count_of (class_rows data c) r.subject).toNat = r.hours.toNat
          rw [subject_count_eq (class_rows data c) hnd r hr]
        rw [hmc]
        exact hsum)
      row.subject
    rw [← hsingle] at hfin
    have h1 := hcnt.1 (by rw [hinit]; exact hrowpos)
    rw [hinit, hfin] at h1
    show ((placed_of (run_cells (O t) (get_classes data) grid_cells
      (init_state (O t) data)).1 c).countP fun slot => slot.subject == row.subject)
      = row.hours.toNat
    have h2 := h1.1
    omega

/-- Witness for `claim_C2` at a concrete input: one class, subjects `M` (2
hours) and `E` (1 hour), no contention. -/
theorem claim_C2_witness :
    (generate O0 [] dataC2 1 = some (trial_run (O0 0) dataC2) ∧
     (⟨"M", "T1", "1", "R1", 2⟩ : Row) ∈ class_rows dataC2 "1" ∧
     ((class_rows dataC2 "1").map Row.subject).Nodup ∧
     get_classes dataC2 = ["1"] ∧
     (∀ r ∈ dataC2, 0 ≤ r.hours) ∧
     ((class_rows dataC2 "1").map fun r => r.hours.toNat).sum ≤ grid_cells.length) ∧
    (placed_count (trial_run (O0 0) dataC2) "1" "M" ≤ 2 ∧
     placed_count (trial_run (O0 0) dataC2) "1" "M" = 2) := by
  refine ⟨⟨rfl, by decide, by decide, by decide, by decide, by decide⟩, ?_⟩
  have := claim_C2 O0 [] dataC2 1 (trial_run (O0 0) dataC2) rfl "1"
    ⟨"M", "T1", "1", "R1", 2⟩ (by decide) (by decide)
  exact ⟨this.1, this.2 (by decide) (by decide) (by decide)⟩

/-- Claim C8 (amended): when two rows for the same class list the identical
subject with hours `n1` and `n2` (in that order), the expanded pool does hold
`n1 + n2` independent slots, but the later row's count overwrites the earlier
one in `subject_count`, so in a contention-free grid with enough cells exactly
`n2` — the LAST row's `weekly_hours` — slots of that subject are placed, not
`n1 + n2`. -/
theorem claim_C8 (O : Nat → Oracle) (locs : List GLoc) (n : Nat) (n1 n2 : Int)
    (h0 : 0 ≤ n1) (h1 : 0 ≤ n2) (h30 : n2.toNat ≤ grid_cells.length)
    (T : Timetable) (h : generate O locs (data8 n1 n2) n = some T) :
    (subject_slots_of (class_rows (data8 n1 n2) "1")).length = n1.toNat + n2.toNat ∧
    placed_count T "1" "S" = n2.toNat := by
  obtain ⟨t, rfl⟩ := generate_eq_some h
  have hcr : class_rows (data8 n1 n2) "1" = data8 n1 n2 := rfl
  constructor
  · rw [hcr]
    simp [subject_slots_of, data8]
  · have hcls : get_classes (data8 n1 n2) = ["1"] := rfl
    have hposall : ∀ r ∈ class_rows (data8 n1 n2) "1", 0 ≤ r.hours := by
      rw [hcr]
      intro r hr
      rcases List.mem_cons.mp hr with rfl | hr2
      · exact h0
      · rcases List.mem_cons.mp hr2 with rfl | hr3
        · exact h1
        · cases hr3
    have hinit : (init_state (O t) (data8 n1 n2)).count "1" "S" = n2 := by
      show subject_count_of (class_rows (data8 n1 n2) "1") "S" = n2
      rw [hcr]
      rfl
    have hpool := init_pool_perm (O t) (data8 n1 n2) "1"
    have hfin := run_cells_single_exhaust (O t) "1"
      (((class_rows (data8 n1 n2) "1").map Row.subject).dedup)
      (List.nodup_dedup _)
      grid_cells (init_state (O t) (data8 n1 n2))
      (fun S => subject_count_nonneg hposall S)
      (fun S => by
        have ha := subject_count_le_countP S (class_rows (data8 n1 n2) "1") (fun _ => 0)
        have hb := hpool.countP_eq (fun slot => slot.subject == S)
        show (subject_count_of (class_rows (data8 n1 n2) "1") S).toNat
          ≤ ((init_state (O t) (data8 n1 n2)).pool "1").countP
              (fun slot => slot.subject == S)
        rw [hb, subject_count_of]
        simpa using ha)
      (fun S hS => subject_count_zero (fun hm => hS (List.mem_dedup.mpr hm)))
      (fun slot hslot => List.mem_dedup.mpr
        (subject_slots_subject_mem (hpool.mem_iff.mp hslot)))
      (by
        have hdd : ((class_rows (data8 n1 n2) "1").map Row.subject).dedup = ["S"] := by
          rw [hcr]
          rfl
        rw [hdd, List.map_cons, List.map_nil, List.sum_cons, List.sum_nil, hinit]
        omega)
      "S"
    rw [← hcls] at hfin
    have hcnt := run_cells_count (O t) (get_classes (data8 n1 n2))
      (get_classes_nodup _) "1" "S" grid_cells (init_state (O t) (data8 n1 n2))
    have h2 := hcnt.1 (by rw [hinit]; exact h1)
    rw [hinit, hfin] at h2
    show ((placed_of (run_cells (O t) (get_classes (data8 n1 n2)) grid_cells
      (init_state (O t) (data8 n1 n2))).1 "1").countP fun slot => slot.subject == "S")
      = n2.toNat
    have h3 := h2.1
    omega

/-- Witness for `claim_C8` at a concrete input (`n1 = 2`, `n2 = 3`). -/
theorem claim_C8_witness :
    ((0 : Int) ≤ 2 ∧ (0 : Int) ≤ 3 ∧ (3 : Int).toNat ≤ grid_cells.length ∧
     generate O0 [] (data8 2 3) 1 = some (trial_run (O0 0) (data8 2 3))) ∧
    ((subject_slots_of (class_rows (data8 2 3) "1")).length = 2 + 3 ∧
     placed_count (trial_run (O0 0) (data8 2 3)) "1" "S" = 3) :=
  ⟨⟨by decide, by decide, by decide, rfl⟩,
   claim_C8 O0 [] 1 2 3 (by decide) (by decide) (by decide)
     (trial_run (O0 0) (data8 2 3)) rfl⟩

theorem simplePathsGo_self (G : WGraph) (fuel : Nat) (avail : List String) (a : String) :
    simplePathsGo G fuel avail a a = [[a]] := by
  cases fuel with
  | zero => rw [simplePathsGo, if_pos rfl]
  | succ f => rw [simplePathsGo, if_pos rfl]

theorem pathCost_single (G : WGraph) (a : String) : pathCost G [a] = 0 := rfl

theorem shortest_path_self {G : WGraph} {a : String} (ha : a ∈ G.nodes) :
    shortest_path G a a = some [a] := by
  rw [shortest_path, if_pos ⟨ha, ha⟩, simplePaths, simplePathsGo_self]
  rfl

theorem simplePathsGo_sound (G : WGraph) :
    ∀ (fuel : Nat) (avail : List String) (a b : String) (p : List String),
      p ∈ simplePathsGo G fuel avail a b →
      p.head? = some a ∧ p.getLast? = some b ∧
      List.Chain' (fun u v => (edgeWeight G u v).isSome = true) p := by
  intro fuel
  induction fuel with
  | zero =>
    intro avail a b p hp
    rw [simplePathsGo] at hp
    by_cases hab : a = b
    · rw [if_pos hab] at hp
      rw [List.mem_singleton.mp hp]
      exact ⟨rfl, by rw [hab]; rfl, List.chain'_singleton _⟩
    · rw [if_neg hab] at hp
      cases hp
  | succ f ih =>
    intro avail a b p hp
    rw [simplePathsGo] at hp
    by_cases hab : a = b
    · rw [if_pos hab] at hp
      rw [List.mem_singleton.mp hp]
      exact ⟨rfl, by rw [hab]; rfl, List.chain'_singleton _⟩
    · rw [if_neg hab] at hp
      obtain ⟨c, hcmem, hp2⟩ := List.mem_flatMap.mp hp
      obtain ⟨p', hp', rfl⟩ := List.mem_map.mp hp2
      obtain ⟨hh, hl, hc⟩ := ih _ c b p' hp'
      have hedge : (edgeWeight G a c).isSome = true := by
        have := (List.mem_filter.mp hcmem).2
        simpa using this
      have hne : p' ≠ [] := by
        intro he
        rw [he] at hh
        cases hh
      refine ⟨rfl, ?_, ?_⟩
      · cases p' with
        | nil => exact absurd rfl hne
        | cons x xs => rw [List.getLast?_cons_cons]; exact hl
      · refine List.chain'_cons'.mpr ⟨?_, hc⟩
        intro y hy
        cases p' with
        | nil => exact absurd rfl hne
        | cons x xs =>
          have hx : x = a ∨ True := Or.inr trivial
          simp only [List.head?_cons, Option.mem_def, Option.some.injEq] at hy
          rw [← hy]
          have : x = c := by
            simp only [List.head?_cons, Option.some.injEq] at hh
            exact hh
          rw [this]
          exact hedge

theorem direct_mem_simplePaths {G : WGraph} {a b : String} (hab : ¬ a = b)
    (hb : b ∈ G.nodes) (hedge : (edgeWeight G a b).isSome = true) :
    [a, b] ∈ simplePaths G a b := by
  rw [simplePaths]
  have hbe : b ∈ G.nodes.erase a := (List.mem_erase_of_ne (fun h => hab h.symm)).mpr hb
  obtain ⟨k, hk⟩ : ∃ k, (G.nodes.erase a).length = k + 1 := by
    cases hlen : (G.nodes.erase a).length with
    | zero =>
      rw [List.length_eq_zero.mp hlen] at hbe
      cases hbe
    | succ k => exact ⟨k, rfl⟩
  rw [hk, simplePathsGo, if_neg hab]
  refine List.mem_flatMap.mpr ⟨b, ?_, ?_⟩
  · refine List.mem_filter.mpr ⟨hbe, ?_⟩
    simpa using hedge
  · refine List.mem_map.mpr ⟨[b], ?_, rfl⟩
    rw [simplePathsGo_self]
    exact List.mem_singleton.mpr rfl

theorem shortest_path_spec {G : WGraph} {a b : String} (ha : a ∈ G.nodes)
    (hb : b ∈ G.nodes) (hne : ¬ simplePaths G a b = []) :
    ∃ p, shortest_path G a b = some p ∧ p ∈ simplePaths G a b ∧
      ∀ q ∈ simplePaths G a b, pathCost G p ≤ pathCost G q := by
  rw [shortest_path, if_pos ⟨ha, hb⟩]
  cases hm : (simplePaths G a b).argmin (pathCost G) with
  | none => exact absurd (List.argmin_eq_none.mp hm) hne
  | some m => exact ⟨m, rfl, List.argmin_mem hm, fun q hq => List.le_of_mem_argmin hq hm⟩

theorem pairsOf_len_le_one {α : Type} : ∀ l : List α, l.length ≤ 1 → pairsOf l = []
  | [], _ => rfl
  | [_], _ => rfl
  | _ :: _ :: _, h => by simp at h

theorem create_graph_single (r : RLoc) : (create_graph [r]).edges = [] := by
  have hreps : (building_representatives [r]).length ≤ 1 := by
    rw [building_representatives]
    by_cases hf : r.floor = 1
    · simp [hf, updAssoc]
    · simp [hf]
  have h2 : rule2Edges [r] = [] := by
    rw [rule2Edges, pairsOf_len_le_one _ ?_]
    · rfl
    · exact le_trans (List.length_filter_le _ _) (by rfl)
  have h3 : rule3Edges [r] = [] := by
    rw [rule3Edges]
    by_cases hf : r.floor = 1
    · have hrep : (building_representatives [r]).lookup r.building
          = some r.room_number := by
        rw [building_representatives]
        simp [hf, updAssoc, List.lookup]
      simp [hrep]
    · have hrep : (building_representatives [r]).lookup r.building = none := by
        rw [building_representatives]
        simp [hf]
      simp [hrep]
  have h4 : rule4Edges [r] = [] := by
    rw [rule4Edges, pairsOf_len_le_one _ hreps]
    rfl
  show (rule4Edges [r]).reverse ++ (rule3Edges [r]).reverse
      ++ (rule2Edges [r]).reverse ++ (rule1Edges [r]).reverse = []
  rw [h2, h3, h4]
  rfl

/-- Claim C9: `shortest_path(a, a)` returns the one-element path `[a]`, of
cost 0, for every node `a` present in a graph; and a graph built from a
single Location has no edges — both for `graph_util.build_graph` and for
`RouteOptimizer.create_graph`. -/
theorem claim_C9 (G : WGraph) (a : String) (ha : a ∈ G.nodes)
    (loc : GLoc) (rloc : RLoc) :
    (shortest_path G a a = some [a] ∧ pathCost G [a] = 0) ∧
    (build_graph [loc]).edges = [] ∧ (create_graph [rloc]).edges = [] :=
  ⟨⟨shortest_path_self ha, pathCost_single G a⟩, rfl, create_graph_single rloc⟩

/-- Witness for `claim_C9` at a concrete input. -/
theorem claim_C9_witness :
    ("A" ∈ (build_graph locs3).nodes) ∧
    ((shortest_path (build_graph locs3) "A" "A" = some ["A"] ∧
      pathCost (build_graph locs3) ["A"] = 0) ∧
     (build_graph locs9g).edges = [] ∧ (create_graph locs9r).edges = []) :=
  ⟨by decide,
   claim_C9 (build_graph locs3) "A" (by decide) ⟨"b", 1, "R", 0, 0⟩ ⟨"R", 0, 0, "B", 1, 0⟩⟩

theorem pairsOf_mem_sub {α : Type} :
    ∀ {l : List α} {p : α × α}, p ∈ pairsOf l → p.1 ∈ l ∧ p.2 ∈ l := by
  intro l
  induction l with
  | nil => intro p hp; cases hp
  | cons a rest ih =>
    intro p hp
    rw [pairsOf] at hp
    rcases List.mem_append.mp hp with h1 | h2
    · obtain ⟨b, hb, rfl⟩ := List.mem_map.mp h1
      exact ⟨List.mem_cons_self _ _, List.mem_cons_of_mem _ hb⟩
    · have := ih h2
      exact ⟨List.mem_cons_of_mem _ this.1, List.mem_cons_of_mem _ this.2⟩

theorem pairsOf_cover {α : Type} :
    ∀ {l : List α} {x y : α}, x ∈ l → y ∈ l → x ≠ y →
      (x, y) ∈ pairsOf l ∨ (y, x) ∈ pairsOf l := by
  intro l
  induction l with
  | nil => intro x y hx; cases hx
  | cons a rest ih =>
    intro x y hx hy hne
    rw [pairsOf]
    rcases List.mem_cons.mp hx with rfl | hx2
    · rcases List.mem_cons.mp hy with rfl | hy2
      · exact absurd rfl hne
      · exact Or.inl (List.mem_append_left _ (List.mem_map.mpr ⟨y, hy2, rfl⟩))
    · rcases List.mem_cons.mp hy with rfl | hy2
      · exact Or.inr (List.mem_append_left _ (List.mem_map.mpr ⟨x, hx2, rfl⟩))
      · rcases ih hx2 hy2 hne with h | h
        · exact Or.inl (List.mem_append_right _ h)
        · exact Or.inr (List.mem_append_right _ h)

theorem find?_room_of_mem :
    ∀ {locs : List GLoc}, (locs.map GLoc.room_number).Nodup →
      ∀ {la : GLoc}, la ∈ locs →
      locs.find? (fun x => x.room_number == la.room_number) = some la := by
  intro locs
  induction locs with
  | nil => intro _ la hla; cases hla
  | cons x rest ih =>
    intro hnd la hla
    rw [List.map_cons, List.nodup_cons] at hnd
    rcases List.mem_cons.mp hla with rfl | hmem
    · exact List.find?_cons_of_pos _ (beq_self_eq_true _)
    · have hner : (x.room_number == la.room_number) = false := by
        refine beq_eq_false_iff_ne.mpr ?_
        intro hb
        exact hnd.1 (hb ▸ List.mem_map_of_mem _ hmem)
      rw [List.find?_cons, hner]
      exact ih hnd.2 hmem

theorem pairsOf_room_ne :
    ∀ {locs : List GLoc}, (locs.map GLoc.room_number).Nodup →
      ∀ {p : GLoc × GLoc}, p ∈ pairsOf locs → p.1.room_number ≠ p.2.room_number := by
  intro locs
  induction locs with
  | nil => intro _ p hp; cases hp
  | cons x rest ih =>
    intro hnd p hp
    rw [List.map_cons, List.nodup_cons] at hnd
    rw [pairsOf] at hp
    rcases List.mem_append.mp hp with h1 | h2
    · obtain ⟨b, hb, rfl⟩ := List.mem_map.mp h1
      intro he
      exact hnd.1 (he ▸ List.mem_map_of_mem _ hb)
    · exact ih hnd.2 h2

theorem gWeight_nonneg (a b : GLoc) : 0 ≤ gWeight a b :=
  add_nonneg (Real.sqrt_nonneg _) (mul_nonneg (Nat.cast_nonneg _) (by norm_num))

theorem gWeight_symm (a b : GLoc) : gWeight a b = gWeight b a := by
  rw [gWeight, gWeight, euclid, euclid]
  have h1 : (a.x_coord - b.x_coord) ^ 2 + (a.y_coord - b.y_coord) ^ 2
      = (b.x_coord - a.x_coord) ^ 2 + (b.y_coord - a.y_coord) ^ 2 := by ring
  have h2 : (a.floor - b.floor).natAbs = (b.floor - a.floor).natAbs := by omega
  rw [h1, h2]

theorem build_graph_edge_mem {locs : List GLoc} {e : String × String × ℝ}
    (he : e ∈ (build_graph locs).edges) :
    ∃ pr ∈ pairsOf locs,
      e = (pr.1.room_number, pr.2.room_number, gWeight pr.1 pr.2) := by
  have : e ∈ (pairsOf locs).map fun ab =>
      (ab.1.room_number, ab.2.room_number, gWeight ab.1 ab.2) :=
    List.mem_reverse.mp he
  obtain ⟨pr, hpr, hepr⟩ := List.mem_map.mp this
  exact ⟨pr, hpr, hepr.symm⟩

theorem edgeWeight_build {locs : List GLoc}
    (hnd : (locs.map GLoc.room_number).Nodup) {u v : String} {w : ℝ}
    (h : edgeWeight (build_graph locs) u v = some w) :
    u ∈ (build_graph locs).nodes ∧ v ∈ (build_graph locs).nodes ∧ ¬ u = v
    ∧ w = wfun locs u v := by
  rw [edgeWeight] at h
  obtain ⟨e, he, hw⟩ := Option.map_eq_some'.mp h
  have hmem := List.mem_of_find?_eq_some he
  have hpred := List.find?_some he
  obtain ⟨pr, hpr, rfl⟩ := build_graph_edge_mem hmem
  have hsub := pairsOf_mem_sub hpr
  have hroomne := pairsOf_room_ne hnd hpr
  have hf1 := find?_room_of_mem hnd hsub.1
  have hf2 := find?_room_of_mem hnd hsub.2
  simp only [Bool.or_eq_true, Bool.and_eq_true, beq_iff_eq] at hpred
  rcases hpred with ⟨h1, h2⟩ | ⟨h1, h2⟩
  · subst h1
    subst h2
    refine ⟨List.mem_map_of_mem _ hsub.1, List.mem_map_of_mem _ hsub.2, hroomne, ?_⟩
    rw [wfun, hf1, hf2]
    exact hw.symm
  · subst h1
    subst h2
    refine ⟨List.mem_map_of_mem _ hsub.2, List.mem_map_of_mem _ hsub.1,
      fun hvu => hroomne hvu.symm, ?_⟩
    rw [wfun, hf2, hf1]
    rw [← hw]
    exact (gWeight_symm _ _).symm

theorem edgeWeight_build_complete {locs : List GLoc}
    (hnd : (locs.map GLoc.room_number).Nodup) {u v : String}
    (hu : u ∈ (build_graph locs).nodes) (hv : v ∈ (build_graph locs).nodes)
    (huv : ¬ u = v) :
    edgeWeight (build_graph locs) u v = some (wfun locs u v) := by
  obtain ⟨la, hla, hlar⟩ := List.mem_map.mp hu
  obtain ⟨lb, hlb, hlbr⟩ := List.mem_map.mp hv
  have hne : la ≠ lb := fun he => huv (by rw [← hlar, ← hlbr, he])
  have hcov := pairsOf_cover hla hlb hne
  have hex : ∃ e ∈ (build_graph locs).edges,
      ((e.1 == u && e.2.1 == v) || (e.1 == v && e.2.1 == u)) = true := by
    rcases hcov with hc | hc
    · refine ⟨(la.room_number, lb.room_number, gWeight la lb), ?_, ?_⟩
      · exact List.mem_reverse.mpr (List.mem_map.mpr ⟨(la, lb), hc, rfl⟩)
      · simp [hlar, hlbr]
    · refine ⟨(lb.room_number, la.room_number, gWeight lb la), ?_, ?_⟩
      · exact List.mem_reverse.mpr (List.mem_map.mpr ⟨(lb, la), hc, rfl⟩)
      · simp [hlar, hlbr]
  have hsome : ((build_graph locs).edges.find? fun e =>
      (e.1 == u && e.2.1 == v) || (e.1 == v && e.2.1 == u)).isSome = true := by
    rw [List.find?_isSome]
    exact ⟨hex.choose, hex.choose_spec.1, hex.choose_spec.2⟩
  obtain ⟨e, he⟩ := Option.isSome_iff_exists.mp hsome
  have hweq : edgeWeight (build_graph locs) u v = some e.2.2 := by
    rw [edgeWeight, he]
    rfl
  have := edgeWeight_build hnd hweq
  rw [hweq, this.2.2.2]

theorem countP_room_one :
    ∀ {locs : List GLoc}, (locs.map GLoc.room_number).Nodup →
      ∀ {la : GLoc}, la ∈ locs →
      locs.countP (fun x => x.room_number == la.room_number) = 1 := by
  intro locs
  induction locs with
  | nil => intro _ la hla; cases hla
  | cons x rest ih =>
    intro hnd la hla
    rw [List.map_cons, List.nodup_cons] at hnd
    rw [List.countP_cons]
    rcases List.mem_cons.mp hla with rfl | hmem
    · have hz : rest.countP (fun x => x.room_number == la.room_number) = 0 := by
        refine List.countP_eq_zero.mpr ?_
        intro y hy hby
        exact hnd.1 ((beq_iff_eq.mp hby) ▸ List.mem_map_of_mem _ hy)
      rw [hz]
      simp
    · have hx : (x.room_number == la.room_number) = false := by
        refine beq_eq_false_iff_ne.mpr ?_
        intro hb
        exact hnd.1 (hb ▸ List.mem_map_of_mem _ hmem)
      rw [ih hnd.2 hmem, hx]
      simp

theorem pairsOf_count_one :
    ∀ {locs : List GLoc}, (locs.map GLoc.room_number).Nodup →
      ∀ {la lb : GLoc}, la ∈ locs → lb ∈ locs →
      la.room_number ≠ lb.room_number →
      (pairsOf locs).countP (fun pr =>
        (pr.1.room_number == la.room_number && pr.2.room_number == lb.room_number)
        || (pr.1.room_number == lb.room_number && pr.2.room_number == la.room_number))
        = 1 := by
  intro locs
  induction locs with
  | nil => intro _ la lb hla; cases hla
  | cons x rest ih =>
    intro hnd la lb hla hlb hne
    rw [List.map_cons, List.nodup_cons] at hnd
    rw [pairsOf, List.countP_append, List.countP_map]
    by_cases hxa : x.room_number = la.room_number
    · have hlbr : lb ∈ rest := by
        rcases List.mem_cons.mp hlb with rfl | h
        · exact absurd hxa.symm hne
        · exact h
      have hiff : ∀ b : GLoc, (((fun pr =>
          (pr.1.room_number == la.room_number && pr.2.room_number == lb.room_number)
          || (pr.1.room_number == lb.room_number
              && pr.2.room_number == la.room_number)) ∘ fun b => (x, b)) b = true
          ↔ (b.room_number == lb.room_number) = true) := by
        intro b
        simp [Function.comp, hxa, hne]
      have hblock := @List.countP_congr GLoc _ _ rest (fun b hb => hiff b)
      rw [hblock, countP_room_one hnd.2 hlbr]
      have hrest : (pairsOf rest).countP (fun pr =>
          (pr.1.room_number == la.room_number && pr.2.room_number == lb.room_number)
          || (pr.1.room_number == lb.room_number
              && pr.2.room_number == la.room_number)) = 0 := by
        refine List.countP_eq_zero.mpr ?_
        intro pr hpr hb
        have hsub := pairsOf_mem_sub hpr
        simp only [Bool.or_eq_true, Bool.and_eq_true, beq_iff_eq] at hb
        rcases hb with ⟨hc, _⟩ | ⟨_, hc⟩
        · exact hnd.1 (hxa ▸ hc ▸ List.mem_map_of_mem _ hsub.1)
        · exact hnd.1 (hxa ▸ hc ▸ List.mem_map_of_mem _ hsub.2)
      rw [hrest]
    · by_cases hxb : x.room_number = lb.room_number
      · have hlar : la ∈ rest := by
          rcases List.mem_cons.mp hla with rfl | h
          · exact absurd rfl hxa
          · exact h
        have hiff : ∀ b : GLoc, (((fun pr =>
            (pr.1.room_number == la.room_number && pr.2.room_number == lb.room_number)
            || (pr.1.room_number == lb.room_number
                && pr.2.room_number == la.room_number)) ∘ fun b => (x, b)) b = true
            ↔ (b.room_number == la.room_number) = true) := by
          intro b
          simp [Function.comp, hxb, Ne.symm hne]
        have hblock := @List.countP_congr GLoc _ _ rest (fun b hb => hiff b)
        rw [hblock, countP_room_one hnd.2 hlar]
        have hrest : (pairsOf rest).countP (fun pr =>
            (pr.1.room_number == la.room_number && pr.2.room_number == lb.room_number)
            || (pr.1.room_number == lb.room_number
                && pr.2.room_number == la.room_number)) = 0 := by
          refine List.countP_eq_zero.mpr ?_
          intro pr hpr hb
          have hsub := pairsOf_mem_sub hpr
          simp only [Bool.or_eq_true, Bool.and_eq_true, beq_iff_eq] at hb
          rcases hb with ⟨_, hc⟩ | ⟨hc, _⟩
          · exact hnd.1 (hxb ▸ hc ▸ List.mem_map_of_mem _ hsub.2)
          · exact hnd.1 (hxb ▸ hc ▸ List.mem_map_of_mem _ hsub.1)
        rw [hrest]
      · have hlar : la ∈ rest := by
          rcases List.mem_cons.mp hla with rfl | h
          · exact absurd rfl hxa
          · exact h
        have hlbr : lb ∈ rest := by
          rcases List.mem_cons.mp hlb with rfl | h
          · exact absurd rfl hxb
          · exact h
        have hblock : (rest.countP ((fun pr =>
            (pr.1.room_number == la.room_number && pr.2.room_number == lb.room_number)
            || (pr.1.room_number == lb.room_number
                && pr.2.room_number == la.room_number)) ∘ fun b => (x, b)))
            = 0 := by
          refine List.countP_eq_zero.mpr ?_
          intro b _ hb
          simp only [Function.comp, Bool.or_eq_true, Bool.and_eq_true, beq_iff_eq] at hb
          rcases hb with ⟨hc, _⟩ | ⟨hc, _⟩
          · exact hxa hc
          · exact hxb hc
        rw [hblock, ih hnd.2 hlar hlbr hne]

/-- Claim C10: the graph the scheduler actually uses for cost evaluation
(`graph_util.build_graph`) is complete — every pair of distinct input
Locations gets exactly one edge, weighted Euclidean distance plus 5 per floor
of difference, regardless of building or floor — hence every shortest-path
query between loaded rooms succeeds, independently of any floor-1
building-hub condition. -/
theorem claim_C10 (locs : List GLoc) (hnd : (locs.map GLoc.room_number).Nodup)
    (la lb : GLoc) (hla : la ∈ locs) (hlb : lb ∈ locs)
    (hne : la.room_number ≠ lb.room_number) :
    edgeWeight (build_graph locs) la.room_number lb.room_number
      = some (euclid la lb + ((la.floor - lb.floor).natAbs : ℝ) * 5) ∧
    ((build_graph locs).edges.countP fun e =>
      (e.1 == la.room_number && e.2.1 == lb.room_number)
      || (e.1 == lb.room_number && e.2.1 == la.room_number)) = 1 ∧
    (∀ a ∈ (build_graph locs).nodes, ∀ b ∈ (build_graph locs).nodes,
      (shortest_path (build_graph locs) a b).isSome = true) := by
  refine ⟨?_, ?_, ?_⟩
  · have h := edgeWeight_build_complete hnd (List.mem_map_of_mem _ hla)
      (List.mem_map_of_mem _ hlb) hne
    rw [h, wfun, find?_room_of_mem hnd hla, find?_room_of_mem hnd hlb]
    rfl
  · have hperm := List.reverse_perm ((pairsOf locs).map fun ab =>
      (ab.1.room_number, ab.2.room_number, gWeight ab.1 ab.2))
    show (((pairsOf locs).map fun ab => (ab.1.room_number, ab.2.room_number,
        gWeight ab.1 ab.2)).reverse.countP fun e =>
      (e.1 == la.room_number && e.2.1 == lb.room_number)
      || (e.1 == lb.room_number && e.2.1 == la.room_number)) = 1
    rw [hperm.countP_eq, List.countP_map]
    exact pairsOf_count_one hnd hla hlb hne
  · intro a ha b hb
    by_cases hab : a = b
    · rw [hab, shortest_path_self hb]
      rfl
    · have hedge := edgeWeight_build_complete hnd ha hb hab
      have hmem := direct_mem_simplePaths hab hb (by rw [hedge]; rfl)
      obtain ⟨p, hp, -, -⟩ := shortest_path_spec ha hb (List.ne_nil_of_mem hmem)
      rw [hp]
      rfl

/-- Witness for `claim_C10` at a concrete input. -/
theorem claim_C10_witness :
    ((locs3.map GLoc.room_number).Nodup ∧ ("A" : String) ≠ "B") ∧
    (edgeWeight (build_graph locs3) "A" "B"
      = some (euclid ⟨"b", 1, "A", 0, 0⟩ ⟨"b", 1, "B", 3, 4⟩
          + (((1 : Int) - 1).natAbs : ℝ) * 5) ∧
    ((build_graph locs3).edges.countP fun e =>
      (e.1 == "A" && e.2.1 == "B") || (e.1 == "B" && e.2.1 == "A")) = 1 ∧
    (∀ a ∈ (build_graph locs3).nodes, ∀ b ∈ (build_graph locs3).nodes,
      (shortest_path (build_graph locs3) a b).isSome = true)) :=
  ⟨⟨by decide, by decide⟩,
   claim_C10 locs3 (by decide) ⟨"b", 1, "A", 0, 0⟩ ⟨"b", 1, "B", 3, 4⟩
     (List.mem_cons_self _ _) (List.mem_cons_of_mem _ (List.mem_cons_self _ _))
     (by decide)⟩

theorem sqrt_sq_add_sq (x y : ℝ) : Real.sqrt (x ^ 2 + y ^ 2) = Complex.abs ⟨x, y⟩ := by
  rw [Complex.abs_apply, Complex.normSq_mk]
  congr 1
  ring

theorem euclid_triangle (a b c : GLoc) : euclid a c ≤ euclid a b + euclid b c := by
  rw [euclid, euclid, euclid, sqrt_sq_add_sq, sqrt_sq_add_sq, sqrt_sq_add_sq]
  have he : (⟨a.x_coord - c.x_coord, a.y_coord - c.y_coord⟩ : ℂ)
      = ⟨a.x_coord - b.x_coord, a.y_coord - b.y_coord⟩
        + ⟨b.x_coord - c.x_coord, b.y_coord - c.y_coord⟩ := by
    apply Complex.ext <;> simp
  rw [he]
  exact Complex.abs.add_le _ _

theorem wfun_tri {locs : List GLoc} (hnd : (locs.map GLoc.room_number).Nodup)
    {la lb lc : GLoc} (ha : la ∈ locs) (hb : lb ∈ locs) (hc : lc ∈ locs) :
    wfun locs la.room_number lc.room_number
      ≤ wfun locs la.room_number lb.room_number
        + wfun locs lb.room_number lc.room_number := by
  rw [wfun, wfun, wfun, find?_room_of_mem hnd ha, find?_room_of_mem hnd hb,
    find?_room_of_mem hnd hc]
  show gWeight la lc ≤ gWeight la lb + gWeight lb lc
  rw [gWeight, gWeight, gWeight]
  have h1 := euclid_triangle la lb lc
  have h2 : ((la.floor - lc.floor).natAbs : ℝ)
      ≤ ((la.floor - lb.floor).natAbs : ℝ) + ((lb.floor - lc.floor).natAbs : ℝ) := by
    have hn : (la.floor - lc.floor).natAbs
        ≤ (la.floor - lb.floor).natAbs + (lb.floor - lc.floor).natAbs := by omega
    exact_mod_cast hn
  linarith

theorem wfun_tri' {locs : List GLoc} (hnd : (locs.map GLoc.room_number).Nodup)
    {u v w : String} (hu : u ∈ (build_graph locs).nodes)
    (hv : v ∈ (build_graph locs).nodes) (hw : w ∈ (build_graph locs).nodes) :
    wfun locs u w ≤ wfun locs u v + wfun locs v w := by
  obtain ⟨la, hla, rfl⟩ := List.mem_map.mp hu
  obtain ⟨lb, hlb, rfl⟩ := List.mem_map.mp hv
  obtain ⟨lc, hlc, rfl⟩ := List.mem_map.mp hw
  exact wfun_tri hnd hla hlb hlc

theorem build_graph_weight_nonneg {locs : List GLoc} {u v : String} {w : ℝ}
    (h : edgeWeight (build_graph locs) u v = some w) : 0 ≤ w := by
  rw [edgeWeight] at h
  obtain ⟨e, he, hw⟩ := Option.map_eq_some'.mp h
  obtain ⟨pr, hpr, rfl⟩ := build_graph_edge_mem (List.mem_of_find?_eq_some he)
  rw [← hw]
  exact gWeight_nonneg _ _

theorem pathCost_nonneg_bg (locs : List GLoc) :
    ∀ p : List String, 0 ≤ pathCost (build_graph locs) p := by
  intro p
  induction p with
  | nil => exact le_refl 0
  | cons u rest ih =>
    cases rest with
    | nil => exact le_refl 0
    | cons v rest2 =>
      rw [pathCost]
      have h1 : 0 ≤ (edgeWeight (build_graph locs) u v).getD 0 := by
        cases he : edgeWeight (build_graph locs) u v with
        | none => simp
        | some w => simpa using build_graph_weight_nonneg he
      linarith

theorem walk_ge_wfun {locs : List GLoc} (hnd : (locs.map GLoc.room_number).Nodup) :
    ∀ (q : List String) (a b : String), b ∈ (build_graph locs).nodes →
      q.head? = some a → q.getLast? = some b →
      List.Chain' (fun u v => (edgeWeight (build_graph locs) u v).isSome = true) q →
      ¬ a = b →
      wfun locs a b ≤ pathCost (build_graph locs) q := by
  intro q
  induction q with
  | nil => intro a b _ h; cases h
  | cons u rest ih =>
    intro a b hbmem hh hl hc hab
    obtain rfl : u = a := by simpa using hh
    cases rest with
    | nil =>
      have : u = b := by simpa using hl
      exact absurd this hab
    | cons v rest2 =>
      have hedge : (edgeWeight (build_graph locs) u v).isSome = true :=
        (List.chain'_cons.mp hc).1
      have hc2 := (List.chain'_cons.mp hc).2
      obtain ⟨wv, hwv⟩ := Option.isSome_iff_exists.mp hedge
      have hchar := edgeWeight_build hnd hwv
      rw [pathCost, hwv]
      simp only [Option.getD_some]
      by_cases hvb : v = b
      · have hnn := pathCost_nonneg_bg locs (v :: rest2)
        rw [← hvb]
        rw [hchar.2.2.2]
        linarith
      · have hlast : (v :: rest2).getLast? = some b := by
          rw [← hl, List.getLast?_cons_cons]
        have hih := ih v b hbmem rfl hlast hc2 hvb
        have htri := wfun_tri' hnd hchar.1 hchar.2.1 hbmem
        have hwval := hchar.2.2.2
        linarith

/-- Claim C3: on any graph built by `graph_util.build_graph` from a non-empty
Location list (with unique room numbers, per the spec's data model), and any
two rooms present in the graph (the graph is complete, so presence is
connectivity), `shortest_path` returns a path from start to end whose total
weight is at most the total weight of every walk between the same two nodes. -/
theorem claim_C3 (locs : List GLoc) (hnd : (locs.map GLoc.room_number).Nodup)
    (a b : String) (ha : a ∈ (build_graph locs).nodes)
    (hb : b ∈ (build_graph locs).nodes) :
    ∃ p, shortest_path (build_graph locs) a b = some p ∧
      p.head? = some a ∧ p.getLast? = some b ∧
      List.Chain' (fun u v => (edgeWeight (build_graph locs) u v).isSome = true) p ∧
      ∀ q, q.head? = some a → q.getLast? = some b →
        List.Chain' (fun u v => (edgeWeight (build_graph locs) u v).isSome = true) q →
        pathCost (build_graph locs) p ≤ pathCost (build_graph locs) q := by
  by_cases hab : a = b
  · subst hab
    refine ⟨[a], shortest_path_self ha, rfl, rfl, List.chain'_singleton _, ?_⟩
    intro q hh hl hc
    rw [pathCost_single]
    exact pathCost_nonneg_bg locs q
  · have hedge := edgeWeight_build_complete hnd ha hb hab
    have hmem := direct_mem_simplePaths hab hb (by rw [hedge]; rfl)
    obtain ⟨p, hp, hpmem, hmin⟩ := shortest_path_spec ha hb (List.ne_nil_of_mem hmem)
    have hsound := simplePathsGo_sound (build_graph locs) _ _ _ _ _ hpmem
    refine ⟨p, hp, hsound.1, hsound.2.1, hsound.2.2, ?_⟩
    intro q hh hl hc
    have h1 : pathCost (build_graph locs) p ≤ pathCost (build_graph locs) [a, b] :=
      hmin _ hmem
    have h2 : pathCost (build_graph locs) [a, b] = wfun locs a b := by
      rw [pathCost, hedge]
      simp [pathCost]
    have h3 := walk_ge_wfun hnd q a b hb hh hl hc hab
    linarith

/-- Witness for `claim_C3` at a concrete input. -/
theorem claim_C3_witness :
    ((locs3.map GLoc.room_number).Nodup ∧ "A" ∈ (build_graph locs3).nodes ∧
      "B" ∈ (build_graph locs3).nodes) ∧
    (∃ p, shortest_path (build_graph locs3) "A" "B" = some p ∧
      p.head? = some "A" ∧ p.getLast? = some "B" ∧
      List.Chain' (fun u v => (edgeWeight (build_graph locs3) u v).isSome = true) p ∧
      ∀ q, q.head? = some "A" → q.getLast? = some "B" →
        List.Chain' (fun u v => (edgeWeight (build_graph locs3) u v).isSome = true) q →
        pathCost (build_graph locs3) p ≤ pathCost (build_graph locs3) q) :=
  ⟨⟨by decide, by decide, by decide⟩,
   claim_C3 locs3 (by decide) "A" "B" (by decide) (by decide)⟩

theorem edgeWeight_eq_find (G : WGraph) (u v : String) :
    edgeWeight G u v = (G.edges.find? (epred u v)).map (·.2.2) := rfl

theorem lookup_mem :
    ∀ {l : List (String × String)} {k v : String}, l.lookup k = some v → (k, v) ∈ l := by
  intro l
  induction l with
  | nil => intro k v h; cases h
  | cons e rest ih =>
    intro k v h
    obtain ⟨k', v'⟩ := e
    rw [List.lookup_cons] at h
    by_cases hk : k = k'
    · subst hk
      rw [beq_self_eq_true] at h
      cases h
      exact List.mem_cons_self _ _
    · rw [beq_eq_false_iff_ne.mpr hk] at h
      exact List.mem_cons_of_mem _ (ih h)

theorem find?_key_of_mem {α : Type} (f : α → String) :
    ∀ {l : List α}, (l.map f).Nodup → ∀ {x : α}, x ∈ l →
      l.find? (fun y => f y == f x) = some x := by
  intro l
  induction l with
  | nil => intro _ x hx; cases hx
  | cons a rest ih =>
    intro hnd x hx
    rw [List.map_cons, List.nodup_cons] at hnd
    rcases List.mem_cons.mp hx with rfl | hmem
    · exact List.find?_cons_of_pos _ (beq_self_eq_true _)
    · have hna : (f a == f x) = false := by
        refine beq_eq_false_iff_ne.mpr ?_
        intro hb
        exact hnd.1 (hb ▸ List.mem_map_of_mem _ hmem)
      rw [List.find?_cons, hna]
      exact ih hnd.2 hmem

theorem pairsOf_key_ne {α : Type} (f : α → String) :
    ∀ {l : List α}, (l.map f).Nodup → ∀ {p : α × α}, p ∈ pairsOf l → f p.1 ≠ f p.2 := by
  intro l
  induction l with
  | nil => intro _ p hp; cases hp
  | cons a rest ih =>
    intro hnd p hp
    rw [List.map_cons, List.nodup_cons] at hnd
    rw [pairsOf] at hp
    rcases List.mem_append.mp hp with h1 | h2
    · obtain ⟨b, hb, rfl⟩ := List.mem_map.mp h1
      intro he
      exact hnd.1 (he ▸ List.mem_map_of_mem _ hb)
    · exact ih hnd.2 h2

theorem updAssoc_mem {l : List (String × String)} {k v : String} {e : String × String}
    (he : e ∈ updAssoc l k v) : e ∈ l ∨ e = (k, v) := by
  rw [updAssoc] at he
  by_cases h : l.any (fun p => p.1 == k) = true
  · rw [if_pos h] at he
    obtain ⟨p, hp, hpe⟩ := List.mem_map.mp he
    by_cases hpk : p.1 = k
    · right; rw [← hpe, if_pos hpk]
    · left; rw [← hpe, if_neg hpk]; exact hp
  · rw [if_neg h] at he
    rcases List.mem_append.mp he with h1 | h2
    · exact Or.inl h1
    · right
      rcases List.mem_cons.mp h2 with h3 | h3
      · exact h3
      · cases h3

theorem reps_mem_origin :
    ∀ (l : List RLoc) (init : List (String × String)),
      ∀ e ∈ l.foldl
        (fun m loc => if loc.floor = 1 then updAssoc m loc.building loc.room_number else m)
        init,
      e ∈ init ∨ ∃ loc ∈ l, loc.building = e.1 ∧ loc.room_number = e.2 ∧ loc.floor = 1 := by
  intro l
  induction l with
  | nil => intro init e he; exact Or.inl he
  | cons x rest ih =>
    intro init e he
    rw [List.foldl_cons] at he
    rcases ih _ e he with hin | ⟨loc, hl, hp⟩
    · by_cases hf : x.floor = 1
      · rw [if_pos hf] at hin
        rcases updAssoc_mem hin with h1 | h2
        · exact Or.inl h1
        · exact Or.inr ⟨x, List.mem_cons_self _ _, by rw [h2], by rw [h2], hf⟩
      · rw [if_neg hf] at hin
        exact Or.inl hin
    · exact Or.inr ⟨loc, List.mem_cons_of_mem _ hl, hp⟩

theorem reps_sound {locs : List RLoc} {e : String × String}
    (he : e ∈ building_representatives locs) :
    ∃ loc ∈ locs, loc.building = e.1 ∧ loc.room_number = e.2 ∧ loc.floor = 1 := by
  rcases reps_mem_origin locs [] e he with h | h
  · cases h
  · exact h

theorem updAssoc_keys_nodup {l : List (String × String)} (k v : String)
    (hnd : (l.map Prod.fst).Nodup) : ((updAssoc l k v).map Prod.fst).Nodup := by
  rw [updAssoc]
  by_cases h : l.any (fun p => p.1 == k) = true
  · rw [if_pos h, List.map_map]
    have : l.map (Prod.fst ∘ fun p => if p.1 = k then (k, v) else p) = l.map Prod.fst := by
      refine List.map_congr_left ?_
      intro p _
      by_cases hp : p.1 = k
      · simp [hp]
      · simp [hp]
    rw [this]
    exact hnd
  · rw [if_neg h, List.map_append]
    refine List.Nodup.append hnd (List.nodup_singleton _) ?_
    intro a ha hb
    rw [List.map_cons, List.map_nil] at hb
    rcases List.mem_cons.mp hb with hak | hc
    · obtain ⟨p, hp, hpk⟩ := List.mem_map.mp ha
      have hany : l.any (fun q => q.1 == k) = true :=
        List.any_eq_true.mpr ⟨p, hp, by rw [hpk, hak]; exact beq_self_eq_true _⟩
      exact h hany
    · cases hc

theorem reps_keys_nodup_aux :
    ∀ (l : List RLoc) (init : List (String × String)), (init.map Prod.fst).Nodup →
      ((l.foldl
        (fun m loc => if loc.floor = 1 then updAssoc m loc.building loc.room_number else m)
        init).map Prod.fst).Nodup := by
  intro l
  induction l with
  | nil => intro init h; exact h
  | cons x rest ih =>
    intro init h
    rw [List.foldl_cons]
    by_cases hf : x.floor = 1
    · rw [if_pos hf]
      exact ih _ (updAssoc_keys_nodup _ _ h)
    · rw [if_neg hf]
      exact ih _ h

theorem reps_keys_nodup (locs : List RLoc) :
    ((building_representatives locs).map Prod.fst).Nodup :=
  reps_keys_nodup_aux locs [] List.nodup_nil

theorem rule4_shape {locs : List RLoc} {e : String × String × ℝ}
    (he : e ∈ rule4Edges locs) :
    ∃ p ∈ pairsOf (building_representatives locs), e = (p.1.2, p.2.2, 100) := by
  obtain ⟨p, hp, hpe⟩ := List.mem_map.mp he
  exact ⟨p, hp, hpe.symm⟩

theorem rule3_shape {locs : List RLoc} {e : String × String × ℝ}
    (he : e ∈ rule3Edges locs) :
    ∃ loc ∈ locs, ∃ rep,
      (building_representatives locs).lookup loc.building = some rep ∧
      ¬ rep = "" ∧ ¬ loc.room_number = rep ∧
      e = (loc.room_number, rep, ((loc.floor - floorAttr locs rep).natAbs : ℝ) * 10) := by
  obtain ⟨loc, hloc, hsome⟩ := List.mem_filterMap.mp he
  split at hsome
  · cases hsome
  · rename_i rep hlk
    by_cases hc : rep ≠ "" ∧ loc.room_number ≠ rep
    · rw [if_pos hc] at hsome
      cases hsome
      exact ⟨loc, hloc, rep, hlk, hc.1, hc.2, rfl⟩
    · rw [if_neg hc] at hsome
      cases hsome

theorem floorAttr_eq {locs : List RLoc} (hnd : (locs.map RLoc.room_number).Nodup)
    {lr : RLoc} (hlr : lr ∈ locs) : floorAttr locs lr.room_number = lr.floor := by
  have hrev : (locs.reverse.map RLoc.room_number).Nodup := by
    rw [List.map_reverse]
    exact List.nodup_reverse.mpr hnd
  rw [floorAttr, find?_key_of_mem RLoc.room_number hrev (List.mem_reverse.mpr hlr)]
  rfl

theorem edgeWeight_create_rule4 {locs : List RLoc} {u v : String}
    (hex : ∃ e ∈ rule4Edges locs, epred u v e = true) :
    edgeWeight (create_graph locs) u v = some 100 := by
  have hsome : ((rule4Edges locs).reverse.find? (epred u v)).isSome = true := by
    rw [List.find?_isSome]
    obtain ⟨e, he, hp⟩ := hex
    exact ⟨e, List.mem_reverse.mpr he, hp⟩
  obtain ⟨e, hfe⟩ := Option.isSome_iff_exists.mp hsome
  obtain ⟨p, _, hpe⟩ := rule4_shape (List.mem_reverse.mp (List.mem_of_find?_eq_some hfe))
  have hor : ∀ (x y z : Option (String × String × ℝ)),
      (((some e).or x).or y).or z = some e := fun _ _ _ => rfl
  rw [edgeWeight_eq_find]
  show ((((rule4Edges locs).reverse ++ (rule3Edges locs).reverse
      ++ (rule2Edges locs).reverse ++ (rule1Edges locs).reverse).find? (epred u v)).map
      (·.2.2)) = some 100
  rw [List.find?_append, List.find?_append, List.find?_append, hfe, hor]
  rw [hpe]
  rfl

theorem edgeWeight_create_rule3 {locs : List RLoc} {u v : String} {w : ℝ}
    (h4 : ∀ e ∈ rule4Edges locs, epred u v e = false)
    (hex : ∃ e ∈ rule3Edges locs, epred u v e = true)
    (hval : ∀ e ∈ rule3Edges locs, epred u v e = true → e.2.2 = w) :
    edgeWeight (create_graph locs) u v = some w := by
  have h4n : (rule4Edges locs).reverse.find? (epred u v) = none := by
    rw [List.find?_eq_none]
    intro x hx
    rw [h4 x (List.mem_reverse.mp hx)]
    simp
  have hsome : ((rule3Edges locs).reverse.find? (epred u v)).isSome = true := by
    rw [List.find?_isSome]
    obtain ⟨e, he, hp⟩ := hex
    exact ⟨e, List.mem_reverse.mpr he, hp⟩
  obtain ⟨e, hfe⟩ := Option.isSome_iff_exists.mp hsome
  have hw : e.2.2 = w :=
    hval e (List.mem_reverse.mp (List.mem_of_find?_eq_some hfe)) (List.find?_some hfe)
  have hor : ∀ (y z : Option (String × String × ℝ)),
      (((Option.none).or (some e)).or y).or z = some e := fun _ _ => rfl
  rw [edgeWeight_eq_find]
  show ((((rule4Edges locs).reverse ++ (rule3Edges locs).reverse
      ++ (rule2Edges locs).reverse ++ (rule1Edges locs).reverse).find? (epred u v)).map
      (·.2.2)) = some w
  rw [List.find?_append, List.find?_append, List.find?_append, h4n, hfe, hor]
  show some e.2.2 = some w
  rw [hw]

/-- Claim C4 is refuted as stated: in `locs4`, building `B` does have a
floor-1 Location, but its room number is the empty string, which is falsy in
Python — the guard `if rep_node and node != rep_node` (route_optimizer.py
line 70) then suppresses every building-hub edge, so the floor-2 room `R2`
gets no edge at all (the graph has no edges whatsoever). -/
theorem claim_C4_counterexample :
    (building_representatives locs4).lookup "B" = some "" ∧
    (create_graph locs4).edges = [] ∧
    edgeWeight (create_graph locs4) "R2" "" = none := by
  refine ⟨rfl, ?_, rfl⟩
  show (rule4Edges locs4).reverse ++ (rule3Edges locs4).reverse
    ++ (rule2Edges locs4).reverse ++ (rule1Edges locs4).reverse = []
  rfl

/-- Claim C4 (amended): under unique room numbers, whenever a building's
floor-1 representative exists *and its room number is truthy (non-empty)*,
every other Location of that building is joined to the representative by an
edge of weight `|floor - 1| * 10`. -/
theorem claim_C4 (locs : List RLoc) (hnd : (locs.map RLoc.room_number).Nodup)
    (B rep : String) (hrep : (building_representatives locs).lookup B = some rep)
    (hrepne : ¬ rep = "") (loc : RLoc) (hloc : loc ∈ locs) (hlb : loc.building = B)
    (hlr : ¬ loc.room_number = rep) :
    edgeWeight (create_graph locs) loc.room_number rep
      = some (((loc.floor - 1).natAbs : ℝ) * 10) := by
  obtain ⟨lr, hlrmem, hlrb0, hlrroom0, hlrfloor⟩ := reps_sound (lookup_mem hrep)
  have hlrb : lr.building = B := hlrb0
  have hlrroom : lr.room_number = rep := hlrroom0
  have hfa : floorAttr locs rep = 1 := by
    rw [← hlrroom, floorAttr_eq hnd hlrmem, hlrfloor]
  have hkey : ∀ q ∈ building_representatives locs,
      q.2 = rep ∨ q.2 = loc.room_number → q.1 = B := by
    intro q hq hcase
    obtain ⟨lq, hlqm, hlqb, hlqr, hlqf⟩ := reps_sound hq
    rcases hcase with hc | hc
    · have hlql : lq = lr :=
        List.inj_on_of_nodup_map hnd hlqm hlrmem (by rw [hlqr, hc, hlrroom])
      rw [← hlqb, hlql, hlrb]
    · have hlql : lq = loc :=
        List.inj_on_of_nodup_map hnd hlqm hloc (by rw [hlqr, hc])
      rw [← hlqb, hlql, hlb]
  apply edgeWeight_create_rule3
  · intro e he
    obtain ⟨p, hp, rfl⟩ := rule4_shape he
    have hkne : p.1.1 ≠ p.2.1 := pairsOf_key_ne Prod.fst (reps_keys_nodup locs) hp
    have hmem := pairsOf_mem_sub hp
    rcases Bool.eq_false_or_eq_true (epred loc.room_number rep (p.1.2, p.2.2, 100))
      with h | h
    · exfalso
      simp only [epred, Bool.or_eq_true, Bool.and_eq_true, beq_iff_eq] at h
      rcases h with ⟨h1, h2⟩ | ⟨h1, h2⟩
      · exact hkne ((hkey p.1 hmem.1 (Or.inr h1)).trans (hkey p.2 hmem.2 (Or.inl h2)).symm)
      · exact hkne ((hkey p.1 hmem.1 (Or.inl h1)).trans (hkey p.2 hmem.2 (Or.inr h2)).symm)
    · exact h
  · refine ⟨(loc.room_number, rep, ((loc.floor - floorAttr locs rep).natAbs : ℝ) * 10),
      ?_, ?_⟩
    · refine List.mem_filterMap.mpr ⟨loc, hloc, ?_⟩
      rw [hlb, hrep]
      show (if rep ≠ "" ∧ loc.room_number ≠ rep then
        some (loc.room_number, rep, ((loc.floor - floorAttr locs rep).natAbs : ℝ) * 10)
        else none)
        = some (loc.room_number, rep, ((loc.floor - floorAttr locs rep).natAbs : ℝ) * 10)
      rw [if_pos ⟨hrepne, hlr⟩]
    · simp [epred]
  · intro e he hm
    obtain ⟨loc', hloc', rep', hlk', hne', hner', rfl⟩ := rule3_shape he
    simp only [epred, Bool.or_eq_true, Bool.and_eq_true, beq_iff_eq] at hm
    rcases hm with ⟨h1, h2⟩ | ⟨h1, h2⟩
    · have hll : loc' = loc := List.inj_on_of_nodup_map hnd hloc' hloc h1
      show ((loc'.floor - floorAttr locs rep').natAbs : ℝ) * 10
        = ((loc.floor - 1).natAbs : ℝ) * 10
      rw [hll, h2, hfa]
    · exfalso
      have hll : loc' = lr :=
        List.inj_on_of_nodup_map hnd hloc' hlrmem (by rw [h1, hlrroom])
      rw [hll, hlrb, hrep] at hlk'
      cases hlk'
      exact hlr h2.symm

/-- Witness for `claim_C4` at a concrete input: in `locs4w` the building-B
representative is the truthy room `R1`, and the floor-3 room `R2` is joined to
it with weight `|3 - 1| * 10`. -/
theorem claim_C4_witness :
    ((locs4w.map RLoc.room_number).Nodup ∧
      (building_representatives locs4w).lookup "B" = some "R1" ∧
      ¬ ("R1" : String) = "" ∧ ¬ ("R2" : String) = "R1") ∧
    edgeWeight (create_graph locs4w) "R2" "R1"
      = some ((((3 : Int) - 1).natAbs : ℝ) * 10) :=
  ⟨⟨by decide, rfl, by decide, by decide⟩,
   claim_C4 locs4w (by decide) "B" "R1" rfl (by decide)
     ⟨"R2", 0, 0, "B", 3, 0⟩ (List.mem_cons_of_mem _ (List.mem_cons_self _ _))
     rfl (by decide)⟩

/-- Claim C5: any two distinct buildings' representatives are joined by an
edge of the flat constant weight 100; and in the spec §8 scenario (`locs5`,
which has no rule-1 and no rule-2 edge at all) the shortest path from the
building-A floor-2 room to the building-B room runs through the hub and costs
`|2 - 1| * 10 + 100`. -/
theorem claim_C5 (locs : List RLoc) (b1 b2 r1 r2 : String)
    (h1 : (building_representatives locs).lookup b1 = some r1)
    (h2 : (building_representatives locs).lookup b2 = some r2)
    (hb : ¬ b1 = b2) :
    edgeWeight (create_graph locs) r1 r2 = some 100 ∧
    (rule1Edges locs5 = [] ∧ rule2Edges locs5 = []) ∧
    shortest_path (create_graph locs5) "A-201" "B-101"
      = some ["A-201", "A-101", "B-101"] ∧
    pathCost (create_graph locs5) ["A-201", "A-101", "B-101"]
      = (((2 : Int) - 1).natAbs : ℝ) * 10 + 100 := by
  refine ⟨?_, ⟨rfl, rfl⟩, rfl, ?_⟩
  · apply edgeWeight_create_rule4
    have hm1 : (b1, r1) ∈ building_representatives locs := lookup_mem h1
    have hm2 : (b2, r2) ∈ building_representatives locs := lookup_mem h2
    have hne : ((b1, r1) : String × String) ≠ (b2, r2) := by
      intro h
      exact hb (congrArg Prod.fst h)
    rcases pairsOf_cover hm1 hm2 hne with hp | hp
    · exact ⟨(r1, r2, 100), List.mem_map.mpr ⟨((b1, r1), (b2, r2)), hp, rfl⟩,
        by simp [epred]⟩
    · exact ⟨(r2, r1, 100), List.mem_map.mpr ⟨((b2, r2), (b1, r1)), hp, rfl⟩,
        by simp [epred]⟩
  · have hc : pathCost (create_graph locs5) ["A-201", "A-101", "B-101"]
        = ((((2 : Int) - 1).natAbs : ℝ) * 10) + (100 + 0) := rfl
    rw [hc]
    ring

/-- Witness for `claim_C5` at the spec §8 scenario input `locs5`. -/
theorem claim_C5_witness :
    ((building_representatives locs5).lookup "A" = some "A-101" ∧
      (building_representatives locs5).lookup "B" = some "B-101" ∧
      ¬ ("A" : String) = "B") ∧
    (edgeWeight (create_graph locs5) "A-101" "B-101" = some 100 ∧
    (rule1Edges locs5 = [] ∧ rule2Edges locs5 = []) ∧
    shortest_path (create_graph locs5) "A-201" "B-101"
      = some ["A-201", "A-101", "B-101"] ∧
    pathCost (create_graph locs5) ["A-201", "A-101", "B-101"]
      = (((2 : Int) - 1).natAbs : ℝ) * 10 + 100) :=
  ⟨⟨rfl, rfl, by decide⟩, claim_C5 locs5 "A" "B" "A-101" "B-101" rfl rfl (by decide)⟩

theorem class_move_chain (G : WGraph) :
    ∀ (slots : List Slot) (pr : String),
      class_move G (some pr) slots = chainSum G (pr :: slots.map Slot.room) := by
  intro slots
  induction slots with
  | nil => intro pr; rfl
  | cons s rest ih =>
    intro pr
    have h1 : class_move G (some pr) (s :: rest)
        = transition_cost G pr s.room + class_move G (some s.room) rest := rfl
    have h2 : chainSum G (pr :: s.room :: rest.map Slot.room)
        = transition_cost G pr s.room + chainSum G (s.room :: rest.map Slot.room) := rfl
    rw [List.map_cons, h1, h2, ih]

theorem class_move_none_chain (G : WGraph) (slots : List Slot) :
    class_move G none slots = chainSum G (slots.map Slot.room) := by
  cases slots with
  | nil => rfl
  | cons s rest =>
    have h1 : class_move G none (s :: rest) = 0 + class_move G (some s.room) rest := rfl
    rw [List.map_cons, h1, class_move_chain, zero_add]

theorem total_move_chain (G : WGraph) (classes : List String) (T : Timetable) :
    total_move G classes T
      = (classes.map fun c =>
          chainSum G (((placed_of T c).filter fun s => s.room ≠ "").map Slot.room)).sum := by
  rw [total_move]
  congr 1
  exact List.map_congr_left fun c _ => class_move_none_chain G _

/-- Claim C6 (amended): a trial's total movement is exactly the sum, over the
classes, of the transition costs chained along the rooms of the placed slots
*whose room is truthy (non-empty)* — each failed shortest-path query
contributes 0 through `transition_cost` and the walk continues — but contrary
to the claim, `prev_room` does not advance past a non-empty cell whose room
field is falsy: such cells are skipped entirely (scheduler.py line 135). -/
theorem claim_C6 (G : WGraph) (classes : List String) (T : Timetable) :
    total_move G classes T
      = (classes.map fun c =>
          chainSum G (((placed_of T c).filter fun s => s.room ≠ "").map Slot.room)).sum :=
  total_move_chain G classes T

/-- Claim C6 is refuted in its prev_room clause: on `data6` class `1` places
rooms `A`, `""`, `B`; the code (`total_move`) skips the falsy-room cell and
charges the `A → B` path (cost 5 in `build_graph locs6`), while the spec's
walk (`total_move_claim`), which advances `prev_room` to `""` after the second
cell, has both of its queries fail and charges 0. -/
theorem claim_C6_counterexample :
    total_move (build_graph locs6) ["1"] (trial_run (O0 0) data6) = 5 ∧
    total_move_claim (build_graph locs6) ["1"] (trial_run (O0 0) data6) = 0 := by
  constructor
  · rw [total_move_chain]
    have hr : ((placed_of (trial_run (O0 0) data6) "1").filter
        fun s => s.room ≠ "").map Slot.room = ["A", "B"] := by decide
    simp only [List.map_cons, List.map_nil, List.sum_cons, List.sum_nil]
    rw [hr]
    have hc : chainSum (build_graph locs6) ["A", "B"]
        = (gWeight ⟨"b", 1, "A", 0, 0⟩ ⟨"b", 2, "B", 0, 0⟩ + 0) + 0 := rfl
    have hval : gWeight ⟨"b", 1, "A", 0, 0⟩ ⟨"b", 2, "B", 0, 0⟩
        = Real.sqrt (((0 : ℝ) - 0) ^ 2 + ((0 : ℝ) - 0) ^ 2)
          + (((1 : Int) - 2).natAbs : ℝ) * 5 := rfl
    have hn : ((1 : Int) - 2).natAbs = 1 := by decide
    rw [hc, hval, hn]
    norm_num [Real.sqrt_zero]
  · rw [total_move_claim]
    simp only [List.map_cons, List.map_nil, List.sum_cons, List.sum_nil]
    have h3 : class_move_claim (build_graph locs6) none
        (placed_of (trial_run (O0 0) data6) "1") = 0 + (0 + (0 + 0)) := rfl
    rw [h3]
    norm_num
